import Mathlib

/-!
# nitf2jpeg: index-table extraction and repair

A shallow embedding of `nitf2jpeg.cpp` (index extraction `findIdx`, the
big-endian reader, the header-field reader `readFromBuffer`, the repairer
`cleanCorruptedIndices` with its helpers `hasJpegFlag`, `replaceOrErase`,
`searchSubRegion`, and of `main` the argument and length checks, the output
path, the slicing of the compressed streams and the placement of the decoded
blocks), followed by theorems about it.

Conventions of the embedding.

* `unsigned int` values are natural numbers; every place where the C++
  arithmetic can wrap is written with `u32` (reduction modulo `2^32`).
* A pointer into a byte buffer (`const unsigned char*`, `const char*`) is a
  function from the offset to the value stored there; a pointer carries no
  length, the length travels separately (`dataBlockLength`).
* `std::vector<indexPair>` is `List indexPair`.  An access `idxs[i]` outside
  the current bounds of the vector is undefined behaviour in C++; the
  embedding returns `none` for it, so the repair functions return
  `Option (List indexPair)`.
* Loops whose trip count depends on the mutated vector take a fuel argument;
  `monoLoop_fuel` and `markerLoop_fuel` show the fuel used is always enough.
* `int` arithmetic is integer arithmetic: signed overflow is undefined in C++
  and is not modelled.  The narrowing of the stream position to `int` in
  `main` is modelled (`toInt32`, reduction modulo `2^32` to the signed range).
* An exception that is not caught (`std::length_error` from `reserve` in
  `findIdx`) is `none`.
* A run of `main` is the list of its events (`Event`) and the way it ends
  (`Outcome`); the code after the header fields, which needs the codec, is a
  parameter of the run.
* `monoLoopTrace` and `searchLoopReads` are the loops `monoLoop` and
  `searchLoop` with their steps, respectively the offsets they read, recorded.
-/

namespace Nitf2Jpeg

/-- Largest value of `unsigned int` (32 bits), the "not found" / "absent" sentinel. -/
def UINT_MAX : Nat := 4294967295

/-- Reduction of a natural number to `unsigned int`. -/
def u32 (n : Nat) : Nat := n % 4294967296

/-- Conversion of an `int` to `unsigned int` (as when `dataBlockLength` is
passed for the parameter `unsigned int end`). -/
def intToU32 (z : Int) : Nat := (z % 4294967296).toNat

/-- The `struct indexPair` of the source: `unsigned int jpegIndex; int blockIndex;`. -/
structure indexPair where
  jpegIndex : Nat
  blockIndex : Int
deriving DecidableEq

/-- The value `idxs.size() - k` computed in `size_t` (64 bits, wrapping). -/
def sizeMinus (idxs : List indexPair) (k : Nat) : Nat :=
  if k ≤ idxs.length then idxs.length - k else idxs.length + 18446744073709551616 - k

/-- Source `hasJpegFlag`: `(compData[x]==255) && (compData[x+1]==216)`; the
index `x+1` is computed in `unsigned int`. -/
def hasJpegFlag (compData : Nat → Nat) (x : Nat) : Bool :=
  compData x == 255 && compData (u32 (x + 1)) == 216

/-- Source `replaceOrErase`: erase entry `i` when `newJpgIdx == UINT_MAX`,
otherwise overwrite its `jpegIndex`.  `none` when `i` is not a valid index. -/
def replaceOrErase (idxs : List indexPair) (i : Nat) (newJpgIdx : Nat) :
    Option (List indexPair) :=
  if newJpgIdx = UINT_MAX then
    (if i < idxs.length then some (idxs.eraseIdx i) else none)
  else
    match idxs[i]? with
    | some e => some (idxs.set i { e with jpegIndex := newJpgIdx })
    | none => none

/-- The `for` loop of `searchSubRegion`, started at `i` with `n` iterations
left (`n = end - i`): the first `i` with `compData[i]==0xFF` and
`compData[i+1]==0xD8`, or `UINT_MAX` when the loop runs out. -/
def searchLoop (compData : Nat → Nat) : Nat → Nat → Nat
  | 0, _ => UINT_MAX
  | n + 1, i =>
    if compData i == 255 && compData (u32 (i + 1)) == 216 then i
    else searchLoop compData n (u32 (i + 1))

/-- Source `searchSubRegion`: `for (unsigned i = start + 1; i < end; ++i)`. -/
def searchSubRegion (compData : Nat → Nat) (start stop : Nat) : Nat :=
  searchLoop compData (stop - u32 (start + 1)) (u32 (start + 1))

/-- The interior loop of the monotonicity pass (source lines 172-178), at
loop variable `i`. -/
def monoLoop (compData : Nat → Nat) : Nat → Nat → List indexPair → Option (List indexPair)
  | 0, i, idxs => if i < sizeMinus idxs 2 then none else some idxs
  | fuel + 1, i, idxs =>
    if i < sizeMinus idxs 2 then do
      let a ← idxs[i]?
      let b ← idxs[i + 1]?
      if a.jpegIndex > b.jpegIndex then do
        let c ← idxs[i + 2]?
        let j := if a.jpegIndex < c.jpegIndex then i + 1 else i
        let l ← idxs[j - 1]?
        let r ← idxs[j + 1]?
        let idxs' ← replaceOrErase idxs j (searchSubRegion compData l.jpegIndex r.jpegIndex)
        monoLoop compData fuel (j + 1) idxs'
      else monoLoop compData fuel (i + 1) idxs
    else some idxs

/-- The check of the first entry in the monotonicity pass (source lines
167-170); `idxs[2]` is read only when `idxs[0] > idxs[1]`. -/
def monoFirst (compData : Nat → Nat) (idxs : List indexPair) : Option (List indexPair) := do
  let e0 ← idxs[0]?
  let e1 ← idxs[1]?
  if e0.jpegIndex > e1.jpegIndex then do
    let e2 ← idxs[2]?
    if e0.jpegIndex > e2.jpegIndex then
      replaceOrErase idxs 0 (searchSubRegion compData 0 e1.jpegIndex)
    else pure idxs
  else pure idxs

/-- The check of the last entry in the monotonicity pass (source lines 180-183). -/
def monoLast (compData : Nat → Nat) (idxs : List indexPair) (dataBlockLength : Int) :
    Option (List indexPair) := do
  let p ← idxs[sizeMinus idxs 2]?
  let q ← idxs[sizeMinus idxs 1]?
  if p.jpegIndex > q.jpegIndex then
    replaceOrErase idxs (sizeMinus idxs 1)
      (searchSubRegion compData p.jpegIndex (intToU32 dataBlockLength))
  else pure idxs

/-- The first half of `cleanCorruptedIndices` ("find incorrectly written
indices", source lines 166-183): first entry, interior loop, last entry. -/
def monotonicityPass (compData : Nat → Nat) (idxs : List indexPair) (dataBlockLength : Int) :
    Option (List indexPair) := do
  let idxs1 ← monoFirst compData idxs
  let idxs2 ← monoLoop compData idxs1.length 1 idxs1
  monoLast compData idxs2 dataBlockLength

/-- The interior loop of the marker-validity pass (source lines 191-196). -/
def markerLoop (compData : Nat → Nat) : Nat → Nat → List indexPair → Option (List indexPair)
  | 0, i, idxs => if i < sizeMinus idxs 1 then none else some idxs
  | fuel + 1, i, idxs =>
    if i < sizeMinus idxs 1 then do
      let a ← idxs[i]?
      if !hasJpegFlag compData a.jpegIndex then do
        let l ← idxs[i - 1]?
        let r ← idxs[i + 1]?
        let idxs' ← replaceOrErase idxs i (searchSubRegion compData l.jpegIndex r.jpegIndex)
        markerLoop compData fuel (i + 1) idxs'
      else markerLoop compData fuel (i + 1) idxs
    else some idxs

/-- The check of the first entry in the marker-validity pass (source lines 186-189). -/
def markerFirst (compData : Nat → Nat) (idxs : List indexPair) : Option (List indexPair) := do
  let e0 ← idxs[0]?
  if !hasJpegFlag compData e0.jpegIndex then do
    let e1 ← idxs[1]?
    replaceOrErase idxs 0 (searchSubRegion compData 0 e1.jpegIndex)
  else pure idxs

/-- The check of the last entry in the marker-validity pass (source lines 198-201). -/
def markerLast (compData : Nat → Nat) (idxs : List indexPair) (dataBlockLength : Int) :
    Option (List indexPair) := do
  let q ← idxs[sizeMinus idxs 1]?
  if !hasJpegFlag compData q.jpegIndex then do
    let p ← idxs[sizeMinus idxs 2]?
    replaceOrErase idxs (sizeMinus idxs 1)
      (searchSubRegion compData p.jpegIndex (intToU32 dataBlockLength))
  else pure idxs

/-- The second half of `cleanCorruptedIndices` ("find indices with incorrect
JPEG flags", source lines 185-201): first entry, interior loop, last entry. -/
def markerPass (compData : Nat → Nat) (idxs : List indexPair) (dataBlockLength : Int) :
    Option (List indexPair) := do
  let idxs1 ← markerFirst compData idxs
  let idxs2 ← markerLoop compData idxs1.length 1 idxs1
  markerLast compData idxs2 dataBlockLength

/-- Source `cleanCorruptedIndices`: the monotonicity pass followed by the
marker-validity pass, on the same vector. -/
def cleanCorruptedIndices (compData : Nat → Nat) (idxs : List indexPair) (dataBlockLength : Int) :
    Option (List indexPair) := do
  let idxs1 ← monotonicityPass compData idxs dataBlockLength
  markerPass compData idxs1 dataBlockLength

/-- Conversion `static_cast<unsigned char>(c)` of a `char` value `c` (which is
negative for bytes `>= 0x80` where `char` is signed). -/
def toUChar (c : Int) : Nat := (c % 256).toNat

/-- Source `readBigEndian`: `x += (unsigned)(unsigned char)buffer[start+i] << (3-i)*8`
for `i = 0..3`, in `unsigned int` arithmetic. -/
def readBigEndian (buffer : Nat → Int) (start : Nat) : Nat :=
  (List.range 4).foldl
    (fun x i => u32 (x + u32 (toUChar (buffer (start + i)) <<< ((3 - i) * 8)))) 0

/-- The value of type `char` that reading a byte `b` (`0..255`) through a
`const char*` gives: the byte itself where `char` is unsigned, its
two's-complement value (`b - 256` for `b >= 0x80`) where `char` is signed. -/
def charOfByte (signedChar : Bool) (b : Nat) : Int :=
  if signedChar && decide (128 ≤ b) then (b : Int) - 256 else (b : Int)

/-- Source `findIdx`: `idxs.reserve(numBlocks)`, then for `i = 0 .. numBlocks-1`
read the offset at `start + i*4` and push `(x, i)` onto `idxs` when
`x < UINT_MAX`.  `reserve` takes a `size_t`: a negative `numBlocks` becomes a
count above `max_size()` and `reserve` throws `std::length_error`, for which
the result is `none`.  Running out of memory is not modelled; `start` is a
non-negative offset and every slot of the table is taken to be readable. -/
def findIdx (datablock : Nat → Int) (start : Nat) (numBlocks : Int) (idxs : List indexPair) :
    Option (List indexPair) :=
  if numBlocks < 0 then none
  else
    some ((List.range numBlocks.toNat).foldl
      (fun acc i =>
        let x := readBigEndian datablock (start + i * 4)
        if x < UINT_MAX then acc ++ [{ jpegIndex := x, blockIndex := (i : Int) }] else acc)
      idxs)

/-- The range constructor `std::vector<unsigned char>(compData + first, compData + last)`:
the bytes at offsets `first .. last-1`; `none` when `last` is before `first`
(not a valid range). -/
def vectorRange (compData : Nat → Nat) (first : Nat) (last : Int) : Option (List Nat) :=
  if (first : Int) ≤ last then
    some ((List.range (last - first).toNat).map (fun t => compData (first + t)))
  else none

/-- The bytes `block_` built in the body of the assembly loop of `main` for
loop variable `k` (source lines 123-124): the range from `compData +
idxs[k].jpegIndex` to `compData + idxs[k+1].jpegIndex - 1`. -/
def pairStream (compData : Nat → Nat) (idxs : List indexPair) (k : Nat) : Option (List Nat) := do
  let a ← idxs[k]?
  let b ← idxs[k + 1]?
  vectorRange compData a.jpegIndex ((b.jpegIndex : Int) - 1)

/-- The bytes `block_` built for the last entry, `k = idxs.size()-1` (source
lines 142-144): the range from `compData + idxs[k].jpegIndex` to
`compData + dataBlockLength - 1`. -/
def lastStream (compData : Nat → Nat) (idxs : List indexPair) (dataBlockLength : Int) :
    Option (List Nat) := do
  let a ← idxs[sizeMinus idxs 1]?
  vectorRange compData a.jpegIndex (dataBlockLength - 1)

/-- The bytes that `main` writes out and hands to the codec for entry `k`: the
loop `for (k = 0; k < idxs.size()-1; ++k)` serves the entries with a
successor, the block after the loop serves entry `idxs.size()-1`. -/
def blockStream (compData : Nat → Nat) (idxs : List indexPair) (dataBlockLength : Int)
    (k : Nat) : Option (List Nat) :=
  if k < sizeMinus idxs 1 then pairStream compData idxs k
  else if k = sizeMinus idxs 1 then lastStream compData idxs dataBlockLength
  else none

/-! ### Vocabulary of the specification -/

/-- The two bytes at offset `p` are the JPEG start-of-image marker `0xFF 0xD8`. -/
def markerAt (compData : Nat → Nat) (p : Nat) : Prop :=
  compData p = 255 ∧ compData (p + 1) = 216

instance (compData : Nat → Nat) (p : Nat) : Decidable (markerAt compData p) := by
  unfold markerAt; infer_instance

/-- Offset `p` is the first marker strictly between `lo` and `hi`. -/
def firstMarkerIn (compData : Nat → Nat) (lo hi p : Nat) : Prop :=
  lo < p ∧ p < hi ∧ markerAt compData p ∧ ∀ q, q < p → lo < q → ¬ markerAt compData q

instance (compData : Nat → Nat) (lo hi p : Nat) : Decidable (firstMarkerIn compData lo hi p) := by
  unfold firstMarkerIn; infer_instance

/-- The `jpegIndex` of entry `k` of the table (`0` when there is no entry `k`). -/
def offsetAt (T : List indexPair) (k : Nat) : Nat :=
  match T[k]? with
  | some e => e.jpegIndex
  | none => 0

/-- The table with only the `jpegIndex` of entry `j` set to `p`. -/
def setOffset (T : List indexPair) (j p : Nat) : List indexPair :=
  match T[j]? with
  | some e => T.set j { e with jpegIndex := p }
  | none => T

/-- Left end of the bounded search region of entry `j`: the offset of its left
neighbour, `0` for the first entry. -/
def leftBound (T : List indexPair) (j : Nat) : Nat :=
  if j = 0 then 0 else offsetAt T (j - 1)

/-- Right end of the bounded search region of entry `j`: the offset of its
right neighbour; for the last entry the compressed-data length (as the
`unsigned int` that `searchSubRegion` receives). -/
def rightBound (T : List indexPair) (dataBlockLength : Int) (j : Nat) : Nat :=
  if j + 1 = T.length then intToU32 dataBlockLength else offsetAt T (j + 1)

/-- A concrete buffer: `0xFF 0xD8` at every offset listed in `marks`, zero elsewhere. -/
def markedBuffer (marks : List Nat) : Nat → Nat :=
  fun i => if i ∈ marks then 255 else if 0 < i ∧ (i - 1) ∈ marks then 216 else 0

/-- A table with the given offsets at block positions `0, 1, 2, ...`. -/
def tableOf (offsets : List Nat) : List indexPair :=
  offsets.enum.map (fun p => { jpegIndex := p.2, blockIndex := (p.1 : Int) })

/-! ### `main`: the output path -/

/-- The suffix `".jpg"` that `main` appends and compares with. -/
def jpgLower : List Char := ['.', 'j', 'p', 'g']

/-- The suffix `".JPG"` that `main` compares with. -/
def jpgUpper : List Char := ['.', 'J', 'P', 'G']

/-- The test `filename_write.compare(filename_write.length()-4, 4, suffix) == 0`:
the (at most) 4 characters from position `length()-4` equal `suffix`.  `main`
evaluates it only for strings of at least 5 characters. -/
def compareTail4 (s suffix : List Char) : Bool :=
  (s.drop (s.length - 4)).take 4 == suffix

/-- The resolution of `filename_write` in `main` (source lines 69-77); strings
are lists of characters, `argv2` is used only when `argc` is not 2. -/
def outputPath (argc : Int) (argv1 argv2 : List Char) : List Char :=
  if argc = 2 then argv1 ++ jpgLower
  else if argv2.length < 5 || !(compareTail4 argv2 jpgLower || compareTail4 argv2 jpgUpper) then
    argv2 ++ jpgLower
  else argv2

/-- A `cv::Rect`: top-left corner and size, in pixels. -/
structure Rect where
  x : Int
  y : Int
  width : Int
  height : Int
deriving DecidableEq

/-- Pixel `(px, py)` (column, row) lies in the rectangle. -/
def Rect.contains (r : Rect) (px py : Int) : Prop :=
  r.x ≤ px ∧ px < r.x + r.width ∧ r.y ≤ py ∧ py < r.y + r.height

/-- The rectangle of the canvas that `main` copies the block of position
`blockIndex` into (source lines 135-138 and 149-152): `x` is
`NumberOfPixelsPerBlockHorizontal * (blockIndex % NumBlocksPerRow)` with the
`%` of `int` (truncated), `y` is `NumberOfPixelsPerBlockVertical *
floor(double(blockIndex) / double(NumBlocksPerRow))`.  The quotient of two
`int` values is far below `2^53`, where the floor of the `double` quotient is
the floor of the exact quotient. -/
def blockRect (NumBlocksPerRow NumberOfPixelsPerBlockHorizontal
    NumberOfPixelsPerBlockVertical blockIndex : Int) : Rect :=
  { x := NumberOfPixelsPerBlockHorizontal * (Int.tmod blockIndex NumBlocksPerRow),
    y := NumberOfPixelsPerBlockVertical * (Int.fdiv blockIndex NumBlocksPerRow),
    width := NumberOfPixelsPerBlockHorizontal,
    height := NumberOfPixelsPerBlockVertical }

/-- The canvas `im` of `main` (source lines 116-118), as the rectangle of its
pixels: `NumBlocksPerColumn*NumberOfPixelsPerBlockVertical` rows and
`NumBlocksPerRow*NumberOfPixelsPerBlockHorizontal` columns. -/
def canvasRect (NumBlocksPerRow NumBlocksPerColumn NumberOfPixelsPerBlockHorizontal
    NumberOfPixelsPerBlockVertical : Int) : Rect :=
  { x := 0, y := 0,
    width := NumBlocksPerRow * NumberOfPixelsPerBlockHorizontal,
    height := NumBlocksPerColumn * NumberOfPixelsPerBlockVertical }

/-! ### `main`: the assembly stage -/

/-- The assembly loop of `main` (source lines 120-139) at loop variable `k`:
each iteration builds `block_` from entries `k` and `k+1` and hands it to the
codec for the block position of entry `k`.  The result lists the decode
attempts `(bytes, blockIndex)` in order; `none` when an entry outside the
table is read. -/
def assembleLoop (compData : Nat → Nat) (idxs : List indexPair) :
    Nat → Nat → List (List Nat × Int) → Option (List (List Nat × Int))
  | 0, k, acc => if k < sizeMinus idxs 1 then none else some acc
  | fuel + 1, k, acc =>
    if k < sizeMinus idxs 1 then do
      let block ← pairStream compData idxs k
      let a ← idxs[k]?
      assembleLoop compData idxs fuel (k + 1) (acc ++ [(block, a.blockIndex)])
    else some acc

/-- The assembly stage of `main` (source lines 120-153): the loop over the
entries with a successor, then the block for entry `idxs.size()-1`. -/
def assemble (compData : Nat → Nat) (idxs : List indexPair) (dataBlockLength : Int) :
    Option (List (List Nat × Int)) := do
  let acc ← assembleLoop compData idxs (idxs.length + 1) 0 []
  let block ← lastStream compData idxs dataBlockLength
  let a ← idxs[sizeMinus idxs 1]?
  pure (acc ++ [(block, a.blockIndex)])

/-! ### The interior loop of the monotonicity pass, with its steps recorded -/

/-- A step of the interior loop of the monotonicity pass: the test
`idxs[i] > idxs[i+1]` evaluated at position `i`, or `replaceOrErase` applied to
entry `j`. -/
inductive ScanEvent where
  | check (i : Nat)
  | repair (j : Nat)
deriving DecidableEq

/-- The loop `monoLoop` (source lines 172-178) with the positions it tests and
the entries it repairs recorded in order. -/
def monoLoopTrace (compData : Nat → Nat) :
    Nat → Nat → List indexPair → List ScanEvent → Option (List ScanEvent × List indexPair)
  | 0, i, idxs, ev => if i < sizeMinus idxs 2 then none else some (ev, idxs)
  | fuel + 1, i, idxs, ev =>
    if i < sizeMinus idxs 2 then do
      let a ← idxs[i]?
      let b ← idxs[i + 1]?
      if a.jpegIndex > b.jpegIndex then do
        let c ← idxs[i + 2]?
        let j := if a.jpegIndex < c.jpegIndex then i + 1 else i
        let l ← idxs[j - 1]?
        let r ← idxs[j + 1]?
        let idxs' ← replaceOrErase idxs j (searchSubRegion compData l.jpegIndex r.jpegIndex)
        monoLoopTrace compData fuel (j + 1) idxs' (ev ++ [ScanEvent.check i, ScanEvent.repair j])
      else monoLoopTrace compData fuel (i + 1) idxs (ev ++ [ScanEvent.check i])
    else some (ev, idxs)

/-! ### The header-field reader -/

/-- The character is an ASCII decimal digit (`'0'` is 48). -/
def isDigitChar (c : Int) : Bool := decide (48 ≤ c) && decide (c ≤ 57)

/-- The character is white space for `isspace` in the C locale: space, or one
of `\t \n \v \f \r` (9 to 13). -/
def isSpaceChar (c : Int) : Bool := c == 32 || (decide (9 ≤ c) && decide (c ≤ 13))

/-- The digit loop of `atoi` on the characters of the array that are left:
`none` when the scan reaches the end of the array, where `atoi` reads the byte
after it. -/
def atoiDigits : List Int → Int → Option Int
  | [], _ => none
  | c :: rest, acc => if isDigitChar c then atoiDigits rest (acc * 10 + (c - 48)) else some acc

/-- The library function `atoi` of the C standard on a character array that has
exactly the given characters (no terminator is part of it): skip white space,
take an optional sign, accumulate decimal digits up to the first other
character.  `none` when the scan runs past the end of the array or the value
does not fit `int`, both undefined behaviour. -/
def atoi : List Int → Option Int
  | [] => none
  | c :: rest =>
    if isSpaceChar c then atoi rest
    else
      let value :=
        if c = 45 then (atoiDigits rest 0).map (fun v => -v)
        else if c = 43 then atoiDigits rest 0
        else atoiDigits (c :: rest) 0
      value.bind (fun v => if -2147483648 ≤ v ∧ v ≤ 2147483647 then some v else none)

/-- Source `readFromBuffer`: `numchars` bytes from `buffer + start` are copied
into `new char[numchars]` and the array is handed to `atoi` as it is. -/
def readFromBuffer (buffer : Nat → Int) (numchars start : Nat) : Option Int :=
  atoi ((List.range numchars).map (fun i => buffer (start + i)))

/-- The base-10 value of a run of digit characters. -/
def decimalValue (digits : List Int) : Int :=
  digits.foldl (fun acc c => acc * 10 + (c - 48)) 0

/-- A concrete `char` buffer holding the given characters from the given offset on,
zero elsewhere. -/
def charBuffer (offset : Nat) (chars : List Int) : Nat → Int :=
  fun i => if offset ≤ i then chars.getD (i - offset) 0 else 0

/-! ### `main`: the run up to the header fields -/

/-- The loop `searchLoop` of `searchSubRegion` with the offsets of `compData`
it reads recorded in order; `compData[i+1]` is read only when
`compData[i]==0xFF` (the `&&` of the source does not evaluate its right side
otherwise). -/
def searchLoopReads (compData : Nat → Nat) : Nat → Nat → List Nat
  | 0, _ => []
  | n + 1, i =>
    if compData i == 255 then
      if compData (u32 (i + 1)) == 216 then [i, u32 (i + 1)]
      else i :: u32 (i + 1) :: searchLoopReads compData n (u32 (i + 1))
    else i :: searchLoopReads compData n (u32 (i + 1))

/-- The offsets of `compData` read by `searchSubRegion(compData, start, end)`. -/
def searchSubRegionReads (compData : Nat → Nat) (start stop : Nat) : List Nat :=
  searchLoopReads compData (stop - u32 (start + 1)) (u32 (start + 1))

/-! ## Theorems -/

theorem u32_of_lt {n : Nat} (h : n < 4294967296) : u32 n = n := Nat.mod_eq_of_lt h

theorem searchLoop_cases (compData : Nat → Nat) (n i : Nat) (h : i + n ≤ UINT_MAX) :
    (searchLoop compData n i = UINT_MAX ∧ ∀ p, i ≤ p → p < i + n → ¬ markerAt compData p) ∨
    (∃ p, searchLoop compData n i = p ∧ i ≤ p ∧ p < i + n ∧ markerAt compData p ∧
      ∀ q, i ≤ q → q < p → ¬ markerAt compData q) := by
  induction n generalizing i with
  | zero =>
    left
    refine ⟨rfl, ?_⟩
    intro p h1 h2
    omega
  | succ n ih =>
    have hw : u32 (i + 1) = i + 1 := by
      apply u32_of_lt
      unfold UINT_MAX at h
      omega
    unfold searchLoop
    rw [hw]
    by_cases hm : markerAt compData i
    · right
      refine ⟨i, ?_, le_refl _, by omega, hm, ?_⟩
      · have h1 := hm.1
        have h2 := hm.2
        simp [h1, h2]
      · intro q h1 h2
        omega
    · have hcond : (compData i == 255 && compData (i + 1) == 216) = false := by
        unfold markerAt at hm
        by_cases h1 : compData i = 255
        · have h2 : compData (i + 1) ≠ 216 := fun h2 => hm ⟨h1, h2⟩
          simp [h1, h2]
        · simp [h1]
      rw [hcond]
      simp only [Bool.false_eq_true, if_false]
      rcases ih (i + 1) (by omega) with ⟨he, hno⟩ | ⟨p, hp, hle, hlt, hmp, hfirst⟩
      · left
        refine ⟨he, ?_⟩
        intro p h1 h2
        by_cases hpi : p = i
        · subst hpi; exact hm
        · exact hno p (by omega) (by omega)
      · right
        refine ⟨p, hp, by omega, by omega, hmp, ?_⟩
        intro q h1 h2
        by_cases hqi : q = i
        · subst hqi; exact hm
        · exact hfirst q (by omega) h2

/-- Either `searchSubRegion` returns the sentinel and the open region holds no
marker, or it returns the first marker of the open region. -/
theorem searchSubRegion_cases (compData : Nat → Nat) (start stop : Nat)
    (hs : start < UINT_MAX) (he : stop ≤ UINT_MAX) :
    (searchSubRegion compData start stop = UINT_MAX ∧
      ∀ p, start < p → p < stop → ¬ markerAt compData p) ∨
    (∃ p, searchSubRegion compData start stop = p ∧ firstMarkerIn compData start stop p) := by
  have hw : u32 (start + 1) = start + 1 := by
    apply u32_of_lt
    unfold UINT_MAX at hs
    omega
  unfold searchSubRegion
  rw [hw]
  rcases searchLoop_cases compData (stop - (start + 1)) (start + 1) (by omega) with
    ⟨h1, hno⟩ | ⟨p, hp, hle, hlt, hmp, hfirst⟩
  · left
    refine ⟨h1, ?_⟩
    intro p h2 h3
    exact hno p (by omega) (by omega)
  · right
    refine ⟨p, hp, by omega, by omega, hmp, ?_⟩
    intro q h2 h3
    exact hfirst q (by omega) h2


theorem firstMarkerIn_unique {compData : Nat → Nat} {lo hi p q : Nat}
    (hp : firstMarkerIn compData lo hi p) (hq : firstMarkerIn compData lo hi q) : p = q := by
  rcases hp with ⟨hp1, hp2, hp3, hp4⟩
  rcases hq with ⟨hq1, hq2, hq3, hq4⟩
  rcases Nat.lt_trichotomy p q with h | h | h
  · exact absurd hp3 (hq4 p h hp1)
  · exact h
  · exact absurd hq3 (hp4 q h hq1)

/-- C3 (as amended): for every buffer, every `start` below the sentinel and
every `end`, `searchSubRegion` returns a non-sentinel `p` exactly when `p` is
the smallest offset with `start < p < end` holding the marker pair, and it
returns `UINT_MAX` exactly when no offset of `start+1 .. end-1` holds it. -/
theorem searchSubRegion_first_match (compData : Nat → Nat) (start stop : Nat)
    (hs : start < UINT_MAX) (he : stop ≤ UINT_MAX) :
    (∀ p, p ≠ UINT_MAX →
      (searchSubRegion compData start stop = p ↔ firstMarkerIn compData start stop p)) ∧
    (searchSubRegion compData start stop = UINT_MAX ↔
      ∀ p, start < p → p < stop → ¬ markerAt compData p) := by
  rcases searchSubRegion_cases compData start stop hs he with ⟨h1, hno⟩ | ⟨p, hp, hfm⟩
  · refine ⟨?_, ?_⟩
    · intro p hp
      constructor
      · intro h
        exact absurd (h1.symm.trans h).symm hp
      · intro h
        exact absurd h.2.2.1 (hno p h.1 h.2.1)
    · exact ⟨fun _ => hno, fun _ => h1⟩
  · have hpne : p ≠ UINT_MAX := by
      have := hfm.2.1
      omega
    refine ⟨?_, ?_⟩
    · intro q _
      constructor
      · intro h
        rw [← h, hp]
        exact hfm
      · intro h
        rw [hp]
        exact firstMarkerIn_unique hfm h
    · constructor
      · intro h
        exact absurd (hp.symm.trans h) hpne
      · intro h
        exact absurd hfm.2.2.1 (h p hfm.1 hfm.2.1)

/-- C3 (as amended) at a concrete input: markers at offsets 3 and 7, region `(0, 10)`. -/
theorem searchSubRegion_first_match_witness :
    (0 < UINT_MAX ∧ 10 ≤ UINT_MAX) ∧
    ((∀ p, p ≠ UINT_MAX →
      (searchSubRegion (markedBuffer [3, 7]) 0 10 = p ↔
        firstMarkerIn (markedBuffer [3, 7]) 0 10 p)) ∧
    (searchSubRegion (markedBuffer [3, 7]) 0 10 = UINT_MAX ↔
      ∀ p, 0 < p → p < 10 → ¬ markerAt (markedBuffer [3, 7]) p)) :=
  ⟨⟨by decide, by decide⟩,
    searchSubRegion_first_match (markedBuffer [3, 7]) 0 10 (by decide) (by decide)⟩

/-- C3 (counterexample to the claim as stated): with `start = UINT_MAX` the
loop variable `start + 1` wraps to `0`, so the marker at offset `0` is
returned although no offset `p` satisfies `start < p < end`. -/
theorem searchSubRegion_sentinel_start_wraps :
    searchSubRegion (markedBuffer [0]) 4294967295 5 = 0 ∧
    (0 : Nat) ≠ UINT_MAX ∧
    ¬ ∃ p, 4294967295 < p ∧ p < 5 ∧ markerAt (markedBuffer [0]) p := by
  refine ⟨by decide, by decide, ?_⟩
  rintro ⟨p, h1, h2, _⟩
  omega

/-- C6: for a valid index `i`, `replaceOrErase` with the sentinel removes
exactly entry `i` (the entries before and after it stay, in order, with their
fields), and with any other value `v` it keeps the length and changes only the
`jpegIndex` of entry `i` to `v`. -/
theorem replaceOrErase_policy (T : List indexPair) (i : Nat) (hi : i < T.length) :
    (replaceOrErase T i UINT_MAX = some (T.take i ++ T.drop (i + 1)) ∧
      (T.take i ++ T.drop (i + 1)).length + 1 = T.length) ∧
    ∀ v, v ≠ UINT_MAX →
      ∃ T', replaceOrErase T i v = some T' ∧ T'.length = T.length ∧
        T'[i]? = some { jpegIndex := v, blockIndex := (T[i]).blockIndex } ∧
        ∀ k, k ≠ i → T'[k]? = T[k]? := by
  refine ⟨⟨?_, ?_⟩, ?_⟩
  · unfold replaceOrErase
    rw [if_pos rfl, if_pos hi, List.eraseIdx_eq_take_drop_succ]
  · rw [← List.eraseIdx_eq_take_drop_succ, List.length_eraseIdx_of_lt hi]
    omega
  · intro v hv
    refine ⟨T.set i { jpegIndex := v, blockIndex := (T[i]).blockIndex }, ?_, ?_, ?_, ?_⟩
    · unfold replaceOrErase
      rw [if_neg hv, List.getElem?_eq_getElem hi]
    · simp
    · simp [List.getElem?_set, hi]
    · intro k hk
      exact List.getElem?_set_ne (Ne.symm hk)

/-- C6 at a concrete input: entry 1 of a 3-entry table. -/
theorem replaceOrErase_policy_witness :
    1 < (tableOf [10, 20, 30]).length ∧
    ((replaceOrErase (tableOf [10, 20, 30]) 1 UINT_MAX =
        some ((tableOf [10, 20, 30]).take 1 ++ (tableOf [10, 20, 30]).drop (1 + 1)) ∧
      ((tableOf [10, 20, 30]).take 1 ++ (tableOf [10, 20, 30]).drop (1 + 1)).length + 1 =
        (tableOf [10, 20, 30]).length) ∧
    ∀ v, v ≠ UINT_MAX →
      ∃ T', replaceOrErase (tableOf [10, 20, 30]) 1 v = some T' ∧
        T'.length = (tableOf [10, 20, 30]).length ∧
        T'[1]? = some { jpegIndex := v, blockIndex := ((tableOf [10, 20, 30])[1]).blockIndex } ∧
        ∀ k, k ≠ 1 → T'[k]? = (tableOf [10, 20, 30])[k]?) :=
  ⟨by decide, replaceOrErase_policy (tableOf [10, 20, 30]) 1 (by decide)⟩

theorem toUChar_lt (c : Int) : toUChar c < 256 := by
  unfold toUChar
  omega

/-- The value of `readBigEndian` in terms of the four unsigned bytes. -/
theorem readBigEndian_formula (buffer : Nat → Int) (start : Nat) :
    readBigEndian buffer start =
      toUChar (buffer start) * 16777216 + toUChar (buffer (start + 1)) * 65536 +
        toUChar (buffer (start + 2)) * 256 + toUChar (buffer (start + 3)) := by
  have h0 := toUChar_lt (buffer start)
  have h1 := toUChar_lt (buffer (start + 1))
  have h2 := toUChar_lt (buffer (start + 2))
  have h3 := toUChar_lt (buffer (start + 3))
  have hr : List.range 4 = [0, 1, 2, 3] := by decide
  unfold readBigEndian
  rw [hr]
  simp only [List.foldl, Nat.shiftLeft_eq, u32, Nat.add_zero]
  norm_num
  omega

theorem readBigEndian_le (buffer : Nat → Int) (start : Nat) :
    readBigEndian buffer start ≤ UINT_MAX := by
  rw [readBigEndian_formula]
  have h0 := toUChar_lt (buffer start)
  have h1 := toUChar_lt (buffer (start + 1))
  have h2 := toUChar_lt (buffer (start + 2))
  have h3 := toUChar_lt (buffer (start + 3))
  unfold UINT_MAX
  omega

theorem findIdx_foldl (g : Nat → Option indexPair) (step : List indexPair → Nat → List indexPair)
    (hstep : ∀ acc i, step acc i = acc ++ (g i).toList) (l : List Nat) (acc : List indexPair) :
    l.foldl step acc = acc ++ l.filterMap g := by
  induction l generalizing acc with
  | nil => simp
  | cons i l ih =>
    rw [List.foldl_cons, ih, hstep]
    cases h : g i <;> simp [List.filterMap_cons, h]

/-- C8 (the code at a failing input): with byte `t` stored at offset `t`, a
table with offsets `0` and `4` and `dataBlockLength = 8`, the bytes handed to
the codec are `[0, 1, 2]` for entry 0 and `[4, 5, 6]` for the last entry: each
one byte short of the ranges `[0, 4)` and `[4, 8)`. -/
theorem blockStream_one_byte_short :
    blockStream (fun t => t) (tableOf [0, 4]) 8 0 = some [0, 1, 2] ∧
    blockStream (fun t => t) (tableOf [0, 4]) 8 1 = some [4, 5, 6] ∧
    blockStream (fun t => t) (tableOf [0, 4]) 8 0 ≠ some [0, 1, 2, 3] ∧
    blockStream (fun t => t) (tableOf [0, 4]) 8 1 ≠ some [4, 5, 6, 7] := by
  decide


theorem replaceOrErase_length {T T' : List indexPair} {i v : Nat}
    (h : replaceOrErase T i v = some T') :
    T'.length ≤ T.length ∧ T.length ≤ T'.length + 1 := by
  unfold replaceOrErase at h
  split at h
  · split at h
    · rename_i hi
      cases h
      rw [List.length_eraseIdx_of_lt hi]
      omega
    · cases h
  · split at h
    · cases h
      simp
    · cases h

theorem sizeMinus_of_le {T : List indexPair} {k : Nat} (h : k ≤ T.length) :
    sizeMinus T k = T.length - k := by
  unfold sizeMinus
  rw [if_pos h]

theorem sizeMinus_of_gt {T : List indexPair} {k : Nat} (h : T.length < k)
    (hk : k ≤ 18446744073709551616) : T.length ≤ sizeMinus T k := by
  unfold sizeMinus
  rw [if_neg (by omega)]
  omega

/-- One more unit of fuel changes nothing once the fuel covers the rest of the table. -/
theorem monoLoop_succ (compData : Nat → Nat) (fuel : Nat) :
    ∀ (i : Nat) (T : List indexPair), T.length ≤ fuel + i →
      monoLoop compData (fuel + 1) i T = monoLoop compData fuel i T := by
  induction fuel with
  | zero =>
    intro i T h
    have hnone : T[i]? = none := List.getElem?_eq_none (by omega)
    unfold monoLoop
    simp [hnone]
  | succ fuel ih =>
    intro i T h
    rw [monoLoop]
    conv => rhs; rw [monoLoop]
    split
    · cases ha : T[i]? with
      | none => simp
      | some a =>
        cases hb : T[i + 1]? with
        | none => simp
        | some b =>
          simp only [Option.bind_eq_bind, Option.some_bind]
          split
          · cases hc : T[i + 2]? with
            | none => simp
            | some c =>
              simp only [Option.some_bind]
              cases hl : T[(if a.jpegIndex < c.jpegIndex then i + 1 else i) - 1]? with
              | none => simp
              | some l =>
                cases hr : T[(if a.jpegIndex < c.jpegIndex then i + 1 else i) + 1]? with
                | none => simp
                | some r =>
                  simp only [Option.some_bind]
                  cases hre : replaceOrErase T (if a.jpegIndex < c.jpegIndex then i + 1 else i)
                      (searchSubRegion compData l.jpegIndex r.jpegIndex) with
                  | none => simp
                  | some T' =>
                    simp only [Option.some_bind]
                    have hlen := (replaceOrErase_length hre).1
                    apply ih
                    split <;> omega
          · apply ih
            omega
    · rfl

/-- The fuel of the monotonicity loop is irrelevant once it covers the rest of the table. -/
theorem monoLoop_fuel (compData : Nat → Nat) (f g i : Nat) (T : List indexPair)
    (hf : T.length ≤ f + i) (hg : T.length ≤ g + i) :
    monoLoop compData f i T = monoLoop compData g i T := by
  have key : ∀ (f d : Nat), T.length ≤ f + i →
      monoLoop compData (f + d) i T = monoLoop compData f i T := by
    intro f d h
    induction d with
    | zero => rfl
    | succ d ihd =>
      rw [← Nat.add_assoc, monoLoop_succ compData (f + d) i T (by omega), ihd]
  rcases Nat.le_total f g with h | h
  · obtain ⟨d, rfl⟩ := Nat.exists_eq_add_of_le h
    exact (key f d hf).symm
  · obtain ⟨d, rfl⟩ := Nat.exists_eq_add_of_le h
    exact key g d hg

theorem monoLoop_done (compData : Nat → Nat) (f i : Nat) (T : List indexPair)
    (h2 : 2 ≤ T.length) (hi : T.length ≤ i + 2) : monoLoop compData f i T = some T := by
  have hc : ¬ i < sizeMinus T 2 := by
    rw [sizeMinus_of_le h2]
    omega
  cases f with
  | zero => rw [monoLoop, if_neg hc]
  | succ f => rw [monoLoop, if_neg hc]

theorem monoLoop_step_keep (compData : Nat → Nat) (f i : Nat) (T : List indexPair)
    (a b : indexPair) (hf : T.length ≤ f + i) (hi : i + 2 < T.length)
    (ha : T[i]? = some a) (hb : T[i + 1]? = some b) (hab : a.jpegIndex ≤ b.jpegIndex) :
    monoLoop compData f i T = monoLoop compData f (i + 1) T := by
  have hc : i < sizeMinus T 2 := by
    rw [sizeMinus_of_le (by omega)]
    omega
  cases f with
  | zero => omega
  | succ f =>
    rw [monoLoop, if_pos hc]
    simp only [ha, hb, Option.bind_eq_bind, Option.some_bind]
    rw [if_neg (by omega)]
    exact monoLoop_fuel compData f (f + 1) (i + 1) T (by omega) (by omega)

theorem monoLoop_step_fix (compData : Nat → Nat) (f i j : Nat) (T T' : List indexPair)
    (a b c l r : indexPair) (hf : T.length ≤ f + i) (hi : i + 2 < T.length)
    (ha : T[i]? = some a) (hb : T[i + 1]? = some b) (hab : b.jpegIndex < a.jpegIndex)
    (hc : T[i + 2]? = some c) (hj : j = if a.jpegIndex < c.jpegIndex then i + 1 else i)
    (hl : T[j - 1]? = some l) (hr : T[j + 1]? = some r)
    (hre : replaceOrErase T j (searchSubRegion compData l.jpegIndex r.jpegIndex) = some T') :
    monoLoop compData f i T = monoLoop compData f (j + 1) T' := by
  have hcond : i < sizeMinus T 2 := by
    rw [sizeMinus_of_le (by omega)]
    omega
  have hlen := (replaceOrErase_length hre).1
  have hji : i ≤ j := by
    rw [hj]
    split <;> omega
  cases f with
  | zero => omega
  | succ f =>
    rw [monoLoop, if_pos hcond]
    simp only [ha, hb, hc, Option.bind_eq_bind, Option.some_bind]
    rw [if_pos (by omega)]
    rw [← hj]
    simp only [hl, hr, hre, Option.some_bind]
    exact monoLoop_fuel compData f (f + 1) (j + 1) T' (by omega) (by omega)

/-- A table with no descent from position `i` on is left alone by the interior loop. -/
theorem monoLoop_keep_all (compData : Nat → Nat) (f : Nat) (T : List indexPair)
    (h2 : 2 ≤ T.length) :
    ∀ (n i : Nat), T.length ≤ n + i → T.length ≤ f + i →
      (∀ k a b, i ≤ k → k + 2 < T.length → T[k]? = some a → T[k + 1]? = some b →
        a.jpegIndex ≤ b.jpegIndex) →
      monoLoop compData f i T = some T := by
  intro n
  induction n with
  | zero =>
    intro i hn hf _
    exact monoLoop_done compData f i T h2 (by omega)
  | succ n ih =>
    intro i hn hf hok
    by_cases hi : i + 2 < T.length
    · have ha : T[i]? = some T[i] := List.getElem?_eq_getElem (by omega)
      have hb : T[i + 1]? = some T[i + 1] := List.getElem?_eq_getElem (by omega)
      rw [monoLoop_step_keep compData f i T _ _ hf hi ha hb (hok i _ _ (le_refl _) hi ha hb)]
      apply ih (i + 1) (by omega) (by omega)
      intro k a b hk hk2 hka hkb
      exact hok k a b (by omega) hk2 hka hkb
    · exact monoLoop_done compData f i T h2 (by omega)


theorem markerLoop_succ (compData : Nat → Nat) (fuel : Nat) :
    ∀ (i : Nat) (T : List indexPair), T.length ≤ fuel + i →
      markerLoop compData (fuel + 1) i T = markerLoop compData fuel i T := by
  induction fuel with
  | zero =>
    intro i T h
    have hnone : T[i]? = none := List.getElem?_eq_none (by omega)
    unfold markerLoop
    simp [hnone]
  | succ fuel ih =>
    intro i T h
    rw [markerLoop]
    conv => rhs; rw [markerLoop]
    split
    · cases ha : T[i]? with
      | none => simp
      | some a =>
        simp only [Option.bind_eq_bind, Option.some_bind]
        split
        · cases hl : T[i - 1]? with
          | none => simp
          | some l =>
            cases hr : T[i + 1]? with
            | none => simp
            | some r =>
              simp only [Option.some_bind]
              cases hre : replaceOrErase T i
                  (searchSubRegion compData l.jpegIndex r.jpegIndex) with
              | none => simp
              | some T' =>
                simp only [Option.some_bind]
                have hlen := (replaceOrErase_length hre).1
                apply ih
                omega
        · apply ih
          omega
    · rfl

/-- The fuel of the marker loop is irrelevant once it covers the rest of the table. -/
theorem markerLoop_fuel (compData : Nat → Nat) (f g i : Nat) (T : List indexPair)
    (hf : T.length ≤ f + i) (hg : T.length ≤ g + i) :
    markerLoop compData f i T = markerLoop compData g i T := by
  have key : ∀ (f d : Nat), T.length ≤ f + i →
      markerLoop compData (f + d) i T = markerLoop compData f i T := by
    intro f d h
    induction d with
    | zero => rfl
    | succ d ihd =>
      rw [← Nat.add_assoc, markerLoop_succ compData (f + d) i T (by omega), ihd]
  rcases Nat.le_total f g with h | h
  · obtain ⟨d, rfl⟩ := Nat.exists_eq_add_of_le h
    exact (key f d hf).symm
  · obtain ⟨d, rfl⟩ := Nat.exists_eq_add_of_le h
    exact key g d hg

theorem markerLoop_done (compData : Nat → Nat) (f i : Nat) (T : List indexPair)
    (h1 : 1 ≤ T.length) (hi : T.length ≤ i + 1) : markerLoop compData f i T = some T := by
  have hc : ¬ i < sizeMinus T 1 := by
    rw [sizeMinus_of_le h1]
    omega
  cases f with
  | zero => rw [markerLoop, if_neg hc]
  | succ f => rw [markerLoop, if_neg hc]

theorem markerLoop_step_keep (compData : Nat → Nat) (f i : Nat) (T : List indexPair)
    (a : indexPair) (hf : T.length ≤ f + i) (hi : i + 1 < T.length)
    (ha : T[i]? = some a) (hflag : hasJpegFlag compData a.jpegIndex = true) :
    markerLoop compData f i T = markerLoop compData f (i + 1) T := by
  have hc : i < sizeMinus T 1 := by
    rw [sizeMinus_of_le (by omega)]
    omega
  cases f with
  | zero => omega
  | succ f =>
    rw [markerLoop, if_pos hc]
    simp only [ha, hflag, Option.bind_eq_bind, Option.some_bind]
    simp only [Bool.not_true, Bool.false_eq_true, if_false]
    exact markerLoop_fuel compData f (f + 1) (i + 1) T (by omega) (by omega)

theorem markerLoop_step_fix (compData : Nat → Nat) (f i : Nat) (T T' : List indexPair)
    (a l r : indexPair) (hf : T.length ≤ f + i) (hi : i + 1 < T.length)
    (ha : T[i]? = some a) (hflag : hasJpegFlag compData a.jpegIndex = false)
    (hl : T[i - 1]? = some l) (hr : T[i + 1]? = some r)
    (hre : replaceOrErase T i (searchSubRegion compData l.jpegIndex r.jpegIndex) = some T') :
    markerLoop compData f i T = markerLoop compData f (i + 1) T' := by
  have hcond : i < sizeMinus T 1 := by
    rw [sizeMinus_of_le (by omega)]
    omega
  have hlen := (replaceOrErase_length hre).1
  cases f with
  | zero => omega
  | succ f =>
    rw [markerLoop, if_pos hcond]
    simp only [ha, hflag, hl, hr, hre, Option.bind_eq_bind, Option.some_bind]
    simp only [Bool.not_false, if_true]
    exact markerLoop_fuel compData f (f + 1) (i + 1) T' (by omega) (by omega)

/-- A table whose entries from position `i` on all carry the marker is left
alone by the interior loop of the marker pass. -/
theorem markerLoop_keep_all (compData : Nat → Nat) (f : Nat) (T : List indexPair)
    (h1 : 1 ≤ T.length) :
    ∀ (n i : Nat), T.length ≤ n + i → T.length ≤ f + i →
      (∀ k a, i ≤ k → k + 1 < T.length → T[k]? = some a →
        hasJpegFlag compData a.jpegIndex = true) →
      markerLoop compData f i T = some T := by
  intro n
  induction n with
  | zero =>
    intro i hn hf _
    exact markerLoop_done compData f i T h1 (by omega)
  | succ n ih =>
    intro i hn hf hok
    by_cases hi : i + 1 < T.length
    · have ha : T[i]? = some T[i] := List.getElem?_eq_getElem (by omega)
      rw [markerLoop_step_keep compData f i T _ hf hi ha (hok i _ (le_refl _) hi ha)]
      apply ih (i + 1) (by omega) (by omega)
      intro k a hk hk2 hka
      exact hok k a (by omega) hk2 hka
    · exact markerLoop_done compData f i T h1 (by omega)

/-- Both loops skip a stretch of positions at which nothing is to be repaired. -/
theorem monoLoop_skip (compData : Nat → Nat) (f : Nat) (T : List indexPair) :
    ∀ (d i : Nat), T.length ≤ f + i → i + d + 2 ≤ T.length →
      (∀ k a b, i ≤ k → k < i + d → T[k]? = some a → T[k + 1]? = some b →
        a.jpegIndex ≤ b.jpegIndex) →
      monoLoop compData f i T = monoLoop compData f (i + d) T := by
  intro d
  induction d with
  | zero => intro i _ _ _; rfl
  | succ d ih =>
    intro i hf hd hok
    have ha : T[i]? = some T[i] := List.getElem?_eq_getElem (by omega)
    have hb : T[i + 1]? = some T[i + 1] := List.getElem?_eq_getElem (by omega)
    rw [monoLoop_step_keep compData f i T _ _ hf (by omega) ha hb
      (hok i _ _ (le_refl _) (by omega) ha hb)]
    rw [ih (i + 1) (by omega) (by omega)]
    · congr 1
      omega
    · intro k a b hk hk2 hka hkb
      exact hok k a b (by omega) (by omega) hka hkb

theorem markerLoop_skip (compData : Nat → Nat) (f : Nat) (T : List indexPair) :
    ∀ (d i : Nat), T.length ≤ f + i → i + d + 1 ≤ T.length →
      (∀ k a, i ≤ k → k < i + d → T[k]? = some a →
        hasJpegFlag compData a.jpegIndex = true) →
      markerLoop compData f i T = markerLoop compData f (i + d) T := by
  intro d
  induction d with
  | zero => intro i _ _ _; rfl
  | succ d ih =>
    intro i hf hd hok
    have ha : T[i]? = some T[i] := List.getElem?_eq_getElem (by omega)
    rw [markerLoop_step_keep compData f i T _ hf (by omega) ha
      (hok i _ (le_refl _) (by omega) ha)]
    rw [ih (i + 1) (by omega) (by omega)]
    · congr 1
      omega
    · intro k a hk hk2 hka
      exact hok k a (by omega) (by omega) hka


theorem hasJpegFlag_of_markerAt {compData : Nat → Nat} {x : Nat} (hx : x < UINT_MAX)
    (h : markerAt compData x) : hasJpegFlag compData x = true := by
  have hw : u32 (x + 1) = x + 1 := by
    apply u32_of_lt
    unfold UINT_MAX at hx
    omega
  unfold hasJpegFlag
  rw [hw]
  simp [h.1, h.2]

theorem markerAt_of_hasJpegFlag {compData : Nat → Nat} {x : Nat} (hx : x < UINT_MAX)
    (h : hasJpegFlag compData x = true) : markerAt compData x := by
  have hw : u32 (x + 1) = x + 1 := by
    apply u32_of_lt
    unfold UINT_MAX at hx
    omega
  unfold hasJpegFlag at h
  rw [hw] at h
  simpa [markerAt] using h

/-- Strictly increasing offsets, read through indices. -/
theorem increasing_get {T : List indexPair}
    (hs : (T.map (fun e => e.jpegIndex)).Pairwise (fun x y => x < y)) {i j : Nat} {a b : indexPair}
    (hij : i < j) (ha : T[i]? = some a) (hb : T[j]? = some b) : a.jpegIndex < b.jpegIndex := by
  rw [List.pairwise_map, List.pairwise_iff_getElem] at hs
  obtain ⟨hi, rfl⟩ := List.getElem?_eq_some.mp ha
  obtain ⟨hj, rfl⟩ := List.getElem?_eq_some.mp hb
  exact hs i j hi hj hij

/-- The monotonicity pass leaves a table alone when no entry exceeds its right neighbour. -/
theorem monotonicityPass_noop (compData : Nat → Nat) (T : List indexPair) (dataBlockLength : Int)
    (h2 : 2 ≤ T.length)
    (hok : ∀ (k : Nat) (a b : indexPair), T[k]? = some a → T[k + 1]? = some b →
      a.jpegIndex ≤ b.jpegIndex) :
    monotonicityPass compData T dataBlockLength = some T := by
  have h0 : T[0]? = some T[0] := List.getElem?_eq_getElem (by omega)
  have h1 : T[1]? = some T[1] := List.getElem?_eq_getElem (by omega)
  have hp : T[T.length - 2]? = some T[T.length - 2] := List.getElem?_eq_getElem (by omega)
  have hq : T[T.length - 1]? = some T[T.length - 1] := List.getElem?_eq_getElem (by omega)
  have hq' : T[T.length - 2 + 1]? = some T[T.length - 1] := by
    have : T.length - 2 + 1 = T.length - 1 := by omega
    rw [this]
    exact hq
  have h01 := hok 0 _ _ h0 h1
  have hpq := hok (T.length - 2) _ _ hp hq'
  have hloop : monoLoop compData T.length 1 T = some T :=
    monoLoop_keep_all compData T.length T h2 T.length 1 (by omega) (by omega)
      (fun k a b _ _ hka hkb => hok k a b hka hkb)
  unfold monotonicityPass monoFirst monoLast
  simp only [h0, h1, Option.bind_eq_bind, Option.some_bind]
  rw [if_neg (by omega)]
  simp only [Option.pure_def, Option.some_bind, hloop, sizeMinus_of_le h2,
    sizeMinus_of_le (show 1 ≤ T.length by omega), hp, hq]
  rw [if_neg (by omega)]

/-- The marker pass leaves a table alone when every entry carries the marker. -/
theorem markerPass_noop (compData : Nat → Nat) (T : List indexPair) (dataBlockLength : Int)
    (h1 : 1 ≤ T.length)
    (hok : ∀ (k : Nat) (a : indexPair), T[k]? = some a →
      hasJpegFlag compData a.jpegIndex = true) :
    markerPass compData T dataBlockLength = some T := by
  have h0 : T[0]? = some T[0] := List.getElem?_eq_getElem (by omega)
  have hq : T[T.length - 1]? = some T[T.length - 1] := List.getElem?_eq_getElem (by omega)
  have hloop : markerLoop compData T.length 1 T = some T :=
    markerLoop_keep_all compData T.length T h1 T.length 1 (by omega) (by omega)
      (fun k a _ _ hka => hok k a hka)
  unfold markerPass markerFirst markerLast
  simp only [h0, Option.bind_eq_bind, Option.some_bind, hok 0 _ h0, Bool.not_true,
    Bool.false_eq_true, if_false, Option.pure_def, hloop, sizeMinus_of_le h1, hq,
    hok _ _ hq]

/-- C2: on a table of at least 3 entries whose offsets are strictly increasing
and each point at the byte pair `0xFF 0xD8` (offsets below `UINT_MAX`, as
every offset inside a buffer is), `cleanCorruptedIndices` returns the table
unchanged, and so does repairing the result again. -/
theorem cleanCorruptedIndices_noop (compData : Nat → Nat) (T : List indexPair)
    (dataBlockLength : Int) (h3 : 3 ≤ T.length)
    (hinc : (T.map (fun e => e.jpegIndex)).Pairwise (fun x y => x < y))
    (hin : ∀ e, e ∈ T → e.jpegIndex < UINT_MAX)
    (hmark : ∀ e, e ∈ T → markerAt compData e.jpegIndex) :
    cleanCorruptedIndices compData T dataBlockLength = some T ∧
    ((cleanCorruptedIndices compData T dataBlockLength).bind
      (fun T' => cleanCorruptedIndices compData T' dataBlockLength)) = some T := by
  have hclean : cleanCorruptedIndices compData T dataBlockLength = some T := by
    have hmono : monotonicityPass compData T dataBlockLength = some T := by
      apply monotonicityPass_noop compData T dataBlockLength (by omega)
      intro k a b ha hb
      exact Nat.le_of_lt (increasing_get hinc (Nat.lt_succ_self k) ha hb)
    have hmk : markerPass compData T dataBlockLength = some T := by
      apply markerPass_noop compData T dataBlockLength (by omega)
      intro k a ha
      have hmem : a ∈ T := List.getElem?_mem ha
      exact hasJpegFlag_of_markerAt (hin a hmem) (hmark a hmem)
    unfold cleanCorruptedIndices
    simp only [hmono, Option.bind_eq_bind, Option.some_bind, hmk]
  exact ⟨hclean, by rw [hclean, Option.some_bind, hclean]⟩

/-- C2 at a concrete input: a 4-entry table that already satisfies the invariant. -/
theorem cleanCorruptedIndices_noop_witness :
    cleanCorruptedIndices (markedBuffer [2, 10, 20, 30]) (tableOf [2, 10, 20, 30]) 40 =
      some (tableOf [2, 10, 20, 30]) ∧
    ((cleanCorruptedIndices (markedBuffer [2, 10, 20, 30]) (tableOf [2, 10, 20, 30]) 40).bind
      (fun T' => cleanCorruptedIndices (markedBuffer [2, 10, 20, 30]) T' 40)) =
      some (tableOf [2, 10, 20, 30]) :=
  cleanCorruptedIndices_noop (markedBuffer [2, 10, 20, 30]) (tableOf [2, 10, 20, 30]) 40
    (by decide) (by decide) (by decide) (by decide)


theorem intToU32_le (z : Int) : intToU32 z ≤ UINT_MAX := by
  unfold intToU32 UINT_MAX
  omega

theorem intToU32_of_nonneg {z : Int} (h0 : 0 ≤ z) (h1 : z ≤ 2147483647) :
    intToU32 z = z.toNat := by
  unfold intToU32
  omega

theorem offsetAt_eq {T : List indexPair} {k : Nat} {a : indexPair} (h : T[k]? = some a) :
    offsetAt T k = a.jpegIndex := by
  unfold offsetAt
  rw [h]

theorem setOffset_eq {T : List indexPair} {j : Nat} {e : indexPair} (p : Nat)
    (h : T[j]? = some e) : setOffset T j p = T.set j { e with jpegIndex := p } := by
  unfold setOffset
  rw [h]

theorem length_setOffset (T : List indexPair) (j p : Nat) :
    (setOffset T j p).length = T.length := by
  unfold setOffset
  split <;> simp

theorem getElem?_setOffset_ne (T : List indexPair) {j k : Nat} (p : Nat) (h : k ≠ j) :
    (setOffset T j p)[k]? = T[k]? := by
  unfold setOffset
  split
  · exact List.getElem?_set_ne (Ne.symm h)
  · rfl

theorem getElem?_setOffset_self {T : List indexPair} {j : Nat} {e : indexPair} (p : Nat)
    (h : T[j]? = some e) : (setOffset T j p)[j]? = some { e with jpegIndex := p } := by
  rw [setOffset_eq p h, List.getElem?_set]
  have hj : j < T.length := (List.getElem?_eq_some.mp h).1
  simp [hj]

theorem replaceOrErase_replace {T : List indexPair} {i v : Nat} {e : indexPair}
    (hv : v ≠ UINT_MAX) (h : T[i]? = some e) :
    replaceOrErase T i v = some (setOffset T i v) := by
  unfold replaceOrErase
  rw [if_neg hv, h, setOffset_eq v h]

theorem replaceOrErase_erase {T : List indexPair} {i : Nat} (h : i < T.length) :
    replaceOrErase T i UINT_MAX = some (T.eraseIdx i) := by
  unfold replaceOrErase
  rw [if_pos rfl, if_pos h]

/-- When the open region holds a marker, `searchSubRegion` returns the first one. -/
theorem searchSubRegion_found (compData : Nat → Nat) (start stop : Nat)
    (hs : start < UINT_MAX) (he : stop ≤ UINT_MAX)
    (hex : ∃ q, start < q ∧ q < stop ∧ markerAt compData q) :
    searchSubRegion compData start stop ≠ UINT_MAX ∧
    firstMarkerIn compData start stop (searchSubRegion compData start stop) := by
  rcases searchSubRegion_cases compData start stop hs he with ⟨_, hno⟩ | ⟨p, hp, hfm⟩
  · obtain ⟨q, h1, h2, h3⟩ := hex
    exact absurd h3 (hno q h1 h2)
  · rw [hp]
    refine ⟨?_, hfm⟩
    have := hfm.2.1
    omega

/-- When the open region holds no marker, `searchSubRegion` returns the sentinel. -/
theorem searchSubRegion_none (compData : Nat → Nat) (start stop : Nat)
    (hs : start < UINT_MAX) (he : stop ≤ UINT_MAX)
    (hno : ∀ q, start < q → q < stop → ¬ markerAt compData q) :
    searchSubRegion compData start stop = UINT_MAX := by
  rcases searchSubRegion_cases compData start stop hs he with ⟨h, _⟩ | ⟨p, _, hfm⟩
  · exact h
  · exact absurd hfm.2.2.1 (hno p hfm.1 hfm.2.1)


theorem exists_getElem? {T : List indexPair} {k : Nat} (h : k < T.length) :
    ∃ a, T[k]? = some a := ⟨T[k], List.getElem?_eq_getElem h⟩

theorem leftBound_zero (T : List indexPair) : leftBound T 0 = 0 := by
  simp [leftBound]

theorem leftBound_pos {T : List indexPair} {j : Nat} {l : indexPair} (hj : j ≠ 0)
    (hl : T[j - 1]? = some l) : leftBound T j = l.jpegIndex := by
  unfold leftBound
  rw [if_neg hj, offsetAt_eq hl]

theorem rightBound_last {T : List indexPair} {j : Nat} (d : Int) (hj : j + 1 = T.length) :
    rightBound T d j = intToU32 d := by
  unfold rightBound
  rw [if_pos hj]

theorem rightBound_inner {T : List indexPair} {j : Nat} {r : indexPair} (d : Int)
    (hj : j + 1 ≠ T.length) (hr : T[j + 1]? = some r) : rightBound T d j = r.jpegIndex := by
  unfold rightBound
  rw [if_neg hj, offsetAt_eq hr]

/-- C5: on a table of at least 3 entries with strictly increasing offsets
(below `UINT_MAX`) in which exactly entry `j` does not point at `0xFF 0xD8`,
if a marker exists strictly inside the search region of entry `j` (left
neighbour's offset, or `0` for the first entry, to right neighbour's offset, or
the compressed-data length for the last entry), then the monotonicity pass
leaves the table untouched and the marker-validity pass, hence the whole
repair, returns the table with only entry `j`'s offset replaced by the first
marker position of that region. -/
theorem markerPass_repairs_single (compData : Nat → Nat) (T : List indexPair)
    (dataBlockLength : Int) (j : Nat) (h3 : 3 ≤ T.length)
    (hinc : (T.map (fun e => e.jpegIndex)).Pairwise (fun x y => x < y))
    (hin : ∀ e, e ∈ T → e.jpegIndex < UINT_MAX)
    (hj : j < T.length)
    (hbad : ¬ markerAt compData (offsetAt T j))
    (hgood : ∀ k, k < T.length → k ≠ j → markerAt compData (offsetAt T k))
    (hex : ∃ q, leftBound T j < q ∧ q < rightBound T dataBlockLength j ∧ markerAt compData q) :
    ∃ p, firstMarkerIn compData (leftBound T j) (rightBound T dataBlockLength j) p ∧
      monotonicityPass compData T dataBlockLength = some T ∧
      markerPass compData T dataBlockLength = some (setOffset T j p) ∧
      cleanCorruptedIndices compData T dataBlockLength = some (setOffset T j p) := by
  -- facts about single entries
  have hlt : ∀ (k : Nat) (a : indexPair), T[k]? = some a → a.jpegIndex < UINT_MAX :=
    fun k a ha => hin a (List.getElem?_mem ha)
  have hflag : ∀ (k : Nat) (a : indexPair), T[k]? = some a → k ≠ j →
      hasJpegFlag compData a.jpegIndex = true := by
    intro k a ha hkj
    have := hgood k (List.getElem?_eq_some.mp ha).1 hkj
    rw [offsetAt_eq ha] at this
    exact hasJpegFlag_of_markerAt (hlt k a ha) this
  obtain ⟨ej, hej⟩ := exists_getElem? hj
  have hnoflag : hasJpegFlag compData ej.jpegIndex = false := by
    rw [offsetAt_eq hej] at hbad
    cases hf : hasJpegFlag compData ej.jpegIndex
    · rfl
    · exact absurd (markerAt_of_hasJpegFlag (hlt j ej hej) hf) hbad
  -- the monotonicity pass does nothing
  have hmono : monotonicityPass compData T dataBlockLength = some T := by
    apply monotonicityPass_noop compData T dataBlockLength (by omega)
    intro k a b ha hb
    exact Nat.le_of_lt (increasing_get hinc (Nat.lt_succ_self k) ha hb)
  -- the search of the region of entry j succeeds
  have hlo : leftBound T j < UINT_MAX := by
    by_cases hj0 : j = 0
    · subst hj0
      rw [leftBound_zero]
      decide
    · obtain ⟨l, hl⟩ := exists_getElem? (show j - 1 < T.length by omega)
      rw [leftBound_pos hj0 hl]
      exact hlt _ l hl
  have hhi : rightBound T dataBlockLength j ≤ UINT_MAX := by
    by_cases hjl : j + 1 = T.length
    · rw [rightBound_last _ hjl]
      exact intToU32_le _
    · obtain ⟨r, hr⟩ := exists_getElem? (show j + 1 < T.length by omega)
      rw [rightBound_inner _ hjl hr]
      exact Nat.le_of_lt (hlt _ r hr)
  obtain ⟨hne, hfm⟩ := searchSubRegion_found compData _ _ hlo hhi hex
  refine ⟨_, hfm, hmono, ?_⟩
  have hre := replaceOrErase_replace hne hej
  have hlenS := length_setOffset T j
    (searchSubRegion compData (leftBound T j) (rightBound T dataBlockLength j))
  -- entries other than j of the repaired table carry the marker
  have hflagS : ∀ (k : Nat) (a : indexPair), k ≠ j →
      (setOffset T j (searchSubRegion compData (leftBound T j)
        (rightBound T dataBlockLength j)))[k]? = some a →
      hasJpegFlag compData a.jpegIndex = true := by
    intro k a hkj hka
    rw [getElem?_setOffset_ne T _ hkj] at hka
    exact hflag k a hka hkj
  have hmk : markerPass compData T dataBlockLength =
      some (setOffset T j (searchSubRegion compData (leftBound T j)
        (rightBound T dataBlockLength j))) := by
    obtain ⟨e0, h0⟩ := exists_getElem? (show 0 < T.length by omega)
    obtain ⟨eq, hq⟩ := exists_getElem? (show T.length - 1 < T.length by omega)
    by_cases hj0 : j = 0
    · -- the first entry is the bad one
      subst hj0
      obtain ⟨e1, h1⟩ := exists_getElem? (show 0 + 1 < T.length by omega)
      have hL : leftBound T 0 = 0 := leftBound_zero T
      have hR : rightBound T dataBlockLength 0 = e1.jpegIndex :=
        rightBound_inner _ (by omega) h1
      rw [hL, hR] at hre hflagS hlenS ⊢
      have hloop := markerLoop_keep_all compData T.length _ (by rw [hlenS]; omega)
        T.length 1 (by rw [hlenS]; omega) (by rw [hlenS]; omega)
        (fun k a hk _ hka => hflagS k a (by omega) hka)
      have hq' := getElem?_setOffset_ne T (searchSubRegion compData 0 e1.jpegIndex)
        (show T.length - 1 ≠ 0 by omega)
      rw [hq] at hq'
      rw [h0] at hej
      cases hej
      rw [Nat.zero_add] at h1
      unfold markerPass markerFirst markerLast
      simp only [h0, hnoflag, h1, hre, Option.bind_eq_bind, Option.some_bind,
        Bool.not_false, if_true, hlenS, hloop,
        sizeMinus_of_le (show 1 ≤ (setOffset T 0 (searchSubRegion compData 0
          e1.jpegIndex)).length by rw [hlenS]; omega),
        hq', hflag (T.length - 1) eq hq (by omega), Bool.not_true, Bool.false_eq_true,
        if_false, Option.pure_def]
    · have hf0 := hflag 0 e0 h0 (Ne.symm hj0)
      obtain ⟨l, hl⟩ := exists_getElem? (show j - 1 < T.length by omega)
      have hL : leftBound T j = l.jpegIndex := leftBound_pos hj0 hl
      by_cases hjl : j + 1 = T.length
      · -- the last entry is the bad one
        have hR : rightBound T dataBlockLength j = intToU32 dataBlockLength :=
          rightBound_last _ hjl
        have hjeq : j = T.length - 1 := by omega
        rw [hL, hR] at hre ⊢
        have hloop := markerLoop_keep_all compData T.length T (by omega)
          T.length 1 (by omega) (by omega)
          (fun k a _ hk hka => hflag k a hka (by omega))
        subst hjeq
        have h21 : T.length - 1 - 1 = T.length - 2 := by omega
        rw [h21] at hl
        rw [hq] at hej
        cases hej
        unfold markerPass markerFirst markerLast
        simp only [h0, hf0, Option.bind_eq_bind, Option.some_bind, Bool.not_true,
          Bool.false_eq_true, if_false, Option.pure_def, hloop,
          sizeMinus_of_le (show 1 ≤ T.length by omega),
          sizeMinus_of_le (show 2 ≤ T.length by omega), hq, hnoflag, Bool.not_false, if_true,
          hl, hre]
      · -- an interior entry is the bad one
        obtain ⟨r, hr⟩ := exists_getElem? (show j + 1 < T.length by omega)
        have hR : rightBound T dataBlockLength j = r.jpegIndex :=
          rightBound_inner _ hjl hr
        rw [hL, hR] at hre hflagS hlenS ⊢
        have hskip := markerLoop_skip compData T.length T (j - 1) 1 (by omega) (by omega)
          (fun k a _ hk hka => hflag k a hka (by omega))
        have h1j : 1 + (j - 1) = j := by omega
        rw [h1j] at hskip
        have hfix := markerLoop_step_fix compData T.length j T _ _ _ _ (by omega) (by omega)
          hej hnoflag hl hr hre
        have hrest := markerLoop_keep_all compData T.length _ (by rw [hlenS]; omega)
          T.length (j + 1) (by rw [hlenS]; omega) (by rw [hlenS]; omega)
          (fun k a hk _ hka => hflagS k a (by omega) hka)
        have hloop := hskip.trans (hfix.trans hrest)
        have hq' := getElem?_setOffset_ne T
          (searchSubRegion compData l.jpegIndex r.jpegIndex)
          (show T.length - 1 ≠ j by omega)
        rw [hq] at hq'
        unfold markerPass markerFirst markerLast
        simp only [h0, hf0, Option.bind_eq_bind, Option.some_bind, Bool.not_true,
          Bool.false_eq_true, if_false, Option.pure_def, hloop,
          sizeMinus_of_le (show 1 ≤ (setOffset T j (searchSubRegion compData
            l.jpegIndex r.jpegIndex)).length by rw [hlenS]; omega),
          hlenS, hq', hflag (T.length - 1) eq hq (by omega)]
  refine ⟨hmk, ?_⟩
  unfold cleanCorruptedIndices
  simp only [hmono, Option.bind_eq_bind, Option.some_bind, hmk]

/-- C5 at a concrete input: entry 1 points at offset 10, the marker is at offset 12. -/
theorem markerPass_repairs_single_witness :
    ∃ p, firstMarkerIn (markedBuffer [2, 12, 20, 30]) (leftBound (tableOf [2, 10, 20, 30]) 1)
        (rightBound (tableOf [2, 10, 20, 30]) 40 1) p ∧
      monotonicityPass (markedBuffer [2, 12, 20, 30]) (tableOf [2, 10, 20, 30]) 40 =
        some (tableOf [2, 10, 20, 30]) ∧
      markerPass (markedBuffer [2, 12, 20, 30]) (tableOf [2, 10, 20, 30]) 40 =
        some (setOffset (tableOf [2, 10, 20, 30]) 1 p) ∧
      cleanCorruptedIndices (markedBuffer [2, 12, 20, 30]) (tableOf [2, 10, 20, 30]) 40 =
        some (setOffset (tableOf [2, 10, 20, 30]) 1 p) :=
  markerPass_repairs_single (markedBuffer [2, 12, 20, 30]) (tableOf [2, 10, 20, 30]) 40 1
    (by decide) (by decide) (by decide) (by decide) (by decide) (by decide)
    ⟨12, by decide, by decide, by decide⟩


/-- C4: on a table of at least 4 entries in which the entries other than `j`
have strictly increasing offsets (below `UINT_MAX`) with the marker at each,
where entry `j` (not among the last two) has an offset greater than those of
entries `j+1` and `j+2`, and a marker exists strictly between the offset of
entry `j-1` (`0` when `j = 0`) and the offset of entry `j+1`:
`cleanCorruptedIndices` returns the table with only entry `j`'s offset
changed, to the first marker of that region. -/
theorem cleanCorruptedIndices_repairs_single (compData : Nat → Nat) (T : List indexPair)
    (dataBlockLength : Int) (j : Nat) (h4 : 4 ≤ T.length) (hj : j + 2 < T.length)
    (hin : ∀ k, k < T.length → k ≠ j → offsetAt T k < UINT_MAX)
    (hinc' : ∀ b, b < T.length → ∀ a, a < b → a ≠ j → b ≠ j → offsetAt T a < offsetAt T b)
    (hgood : ∀ k, k < T.length → k ≠ j → markerAt compData (offsetAt T k))
    (hbig1 : offsetAt T (j + 1) < offsetAt T j)
    (hbig2 : offsetAt T (j + 2) < offsetAt T j)
    (hex : ∃ q, leftBound T j < q ∧ q < offsetAt T (j + 1) ∧ markerAt compData q) :
    ∃ p, firstMarkerIn compData (leftBound T j) (offsetAt T (j + 1)) p ∧
      cleanCorruptedIndices compData T dataBlockLength = some (setOffset T j p) := by
  have hinc : ∀ a b, a < b → b < T.length → a ≠ j → b ≠ j → offsetAt T a < offsetAt T b :=
    fun a b hab hb => hinc' b hb a hab
  obtain ⟨ej, hej⟩ := exists_getElem? (show j < T.length by omega)
  obtain ⟨er, her⟩ := exists_getElem? (show j + 1 < T.length by omega)
  obtain ⟨ec, hec⟩ := exists_getElem? (show j + 2 < T.length by omega)
  have hlen : ∀ (k : Nat) (a : indexPair), T[k]? = some a → k < T.length :=
    fun k a ha => (List.getElem?_eq_some.mp ha).1
  -- the search succeeds
  have hlo : leftBound T j < UINT_MAX := by
    by_cases hj0 : j = 0
    · subst hj0
      rw [leftBound_zero]
      decide
    · unfold leftBound
      rw [if_neg hj0]
      exact hin (j - 1) (by omega) (by omega)
  have hhi : offsetAt T (j + 1) ≤ UINT_MAX :=
    Nat.le_of_lt (hin (j + 1) (by omega) (by omega))
  obtain ⟨hne, hfm⟩ := searchSubRegion_found compData _ _ hlo hhi hex
  refine ⟨_, hfm, ?_⟩
  have hre := replaceOrErase_replace hne hej
  generalize hp : searchSubRegion compData (leftBound T j) (offsetAt T (j + 1)) = p at *
  have hlenS := length_setOffset T j p
  have hself := getElem?_setOffset_self p hej
  -- the repaired table, entry by entry
  have hentry : ∀ (k : Nat) (a : indexPair), (setOffset T j p)[k]? = some a →
      (k = j ∧ a.jpegIndex = p) ∨ (k ≠ j ∧ T[k]? = some a) := by
    intro k a ha
    by_cases hk : k = j
    · subst hk
      rw [hself] at ha
      cases ha
      exact Or.inl ⟨rfl, rfl⟩
    · rw [getElem?_setOffset_ne T p hk] at ha
      exact Or.inr ⟨hk, ha⟩
  -- no entry of the repaired table exceeds its right neighbour
  have hadj : ∀ (k : Nat) (a b : indexPair), (setOffset T j p)[k]? = some a →
      (setOffset T j p)[k + 1]? = some b → a.jpegIndex ≤ b.jpegIndex := by
    intro k a b ha hb
    rcases hentry k a ha with ⟨hk, hap⟩ | ⟨hk, hat⟩
    · rcases hentry (k + 1) b hb with ⟨hk1, _⟩ | ⟨_, hbt⟩
      · omega
      · subst hk
        rw [her] at hbt
        cases hbt
        rw [hap]
        have := hfm.2.1
        rw [offsetAt_eq her] at this
        omega
    · rcases hentry (k + 1) b hb with ⟨hk1, hbp⟩ | ⟨hk1, hbt⟩
      · have h1 := hfm.1
        have hj0 : j ≠ 0 := by omega
        have hkj : j - 1 = k := by omega
        unfold leftBound at h1
        rw [if_neg hj0, hkj, offsetAt_eq hat] at h1
        omega
      · have := hinc k (k + 1) (by omega) (hlen _ _ hbt) hk hk1
        rw [offsetAt_eq hat, offsetAt_eq hbt] at this
        omega
  -- every entry of the repaired table carries the marker
  have hflagS : ∀ (k : Nat) (a : indexPair), (setOffset T j p)[k]? = some a →
      hasJpegFlag compData a.jpegIndex = true := by
    intro k a ha
    rcases hentry k a ha with ⟨_, hap⟩ | ⟨hk, hat⟩
    · rw [hap]
      have h1 := hfm.2.1
      exact hasJpegFlag_of_markerAt (by omega) hfm.2.2.1
    · have h1 := hin k (hlen _ _ hat) hk
      have h2 := hgood k (hlen _ _ hat) hk
      rw [offsetAt_eq hat] at h1 h2
      exact hasJpegFlag_of_markerAt h1 h2
  have hmarker := markerPass_noop compData (setOffset T j p) dataBlockLength
    (by rw [hlenS]; omega) hflagS
  -- the end of the monotonicity pass on the repaired table
  have hkeep : ∀ i, monoLoop compData T.length i (setOffset T j p) = some (setOffset T j p) :=
    fun i => monoLoop_keep_all compData T.length _ (by rw [hlenS]; omega)
      T.length i (by rw [hlenS]; omega) (by rw [hlenS]; omega)
      (fun k a b _ _ hka hkb => hadj k a b hka hkb)
  obtain ⟨sp, hsp⟩ := exists_getElem? (show T.length - 2 < (setOffset T j p).length by
    rw [hlenS]; omega)
  obtain ⟨sq, hsq⟩ := exists_getElem? (show T.length - 1 < (setOffset T j p).length by
    rw [hlenS]; omega)
  have hpq : sp.jpegIndex ≤ sq.jpegIndex := by
    apply hadj (T.length - 2) sp sq hsp
    have : T.length - 2 + 1 = T.length - 1 := by omega
    rw [this]
    exact hsq
  have hmono : monotonicityPass compData T dataBlockLength = some (setOffset T j p) := by
    obtain ⟨e0, h0⟩ := exists_getElem? (show 0 < T.length by omega)
    obtain ⟨e1, h1⟩ := exists_getElem? (show 1 < T.length by omega)
    obtain ⟨e2, h2⟩ := exists_getElem? (show 2 < T.length by omega)
    rw [offsetAt_eq hej, offsetAt_eq her] at hbig1
    rw [offsetAt_eq hej, offsetAt_eq hec] at hbig2
    by_cases hj0 : j = 0
    · -- the first entry is the one out of order
      subst hj0
      rw [h0] at hej
      cases hej
      rw [Nat.zero_add] at her hec
      rw [h1] at her
      cases her
      rw [h2] at hec
      cases hec
      rw [leftBound_zero, offsetAt_eq h1] at hp
      unfold monotonicityPass monoFirst monoLast
      simp only [h0, h1, h2, Option.bind_eq_bind, Option.some_bind]
      rw [if_pos hbig1, if_pos hbig2, hp]
      simp only [hre, Option.some_bind, hlenS, hkeep 1,
        sizeMinus_of_le (show 2 ≤ (setOffset T 0 p).length by rw [hlenS]; omega),
        sizeMinus_of_le (show 1 ≤ (setOffset T 0 p).length by rw [hlenS]; omega), hsp, hsq]
      rw [if_neg (by omega)]
      rfl
    · -- an entry after the first is the one out of order
      obtain ⟨el, hel⟩ := exists_getElem? (show j - 1 < T.length by omega)
      have h01 : e0.jpegIndex ≤ e1.jpegIndex := by
        by_cases hj1 : j = 1
        · subst hj1
          have := hinc 0 2 (by omega) (by omega) (by omega) (by omega)
          rw [offsetAt_eq h0, offsetAt_eq h2] at this
          rw [h1] at hej
          cases hej
          rw [h2] at her
          cases her
          omega
        · have := hinc 0 1 (by omega) (by omega) (Ne.symm hj0) (Ne.symm hj1)
          rw [offsetAt_eq h0, offsetAt_eq h1] at this
          omega
      have hskip := monoLoop_skip compData T.length T (j - 1) 1 (by omega) (by omega)
        (fun k a b hk hk2 hka hkb => by
          by_cases hkj : k + 1 = j
          · subst hkj
            rw [hej] at hkb
            cases hkb
            have := hinc k (k + 1 + 1) (by omega) (by omega) (by omega) (by omega)
            rw [offsetAt_eq hka, offsetAt_eq her] at this
            omega
          · have := hinc k (k + 1) (by omega) (hlen _ _ hkb) (by omega) hkj
            rw [offsetAt_eq hka, offsetAt_eq hkb] at this
            omega)
      have h1j : 1 + (j - 1) = j := by omega
      rw [h1j] at hskip
      rw [leftBound_pos hj0 hel, offsetAt_eq her] at hp
      have hfix := monoLoop_step_fix compData T.length j j T (setOffset T j p)
        ej er ec el er (by omega) hj hej her hbig1 hec
        (by rw [if_neg (by omega)]) hel her (by rw [hp]; exact hre)
      have hloop := hskip.trans (hfix.trans (hkeep (j + 1)))
      unfold monotonicityPass monoFirst monoLast
      simp only [h0, h1, Option.bind_eq_bind, Option.some_bind]
      rw [if_neg (by omega)]
      simp only [Option.pure_def, Option.some_bind, hloop,
        sizeMinus_of_le (show 2 ≤ (setOffset T j p).length by rw [hlenS]; omega),
        sizeMinus_of_le (show 1 ≤ (setOffset T j p).length by rw [hlenS]; omega),
        hlenS, hsp, hsq]
      rw [if_neg (by omega)]
  unfold cleanCorruptedIndices
  simp only [hmono, Option.bind_eq_bind, Option.some_bind, hmarker]

/-- C4 at a concrete input: entry 1 holds offset 40, above entries 2 and 3. -/
theorem cleanCorruptedIndices_repairs_single_witness :
    ∃ p, firstMarkerIn (markedBuffer [2, 10, 20, 30]) (leftBound (tableOf [2, 40, 20, 30]) 1)
        (offsetAt (tableOf [2, 40, 20, 30]) (1 + 1)) p ∧
      cleanCorruptedIndices (markedBuffer [2, 10, 20, 30]) (tableOf [2, 40, 20, 30]) 40 =
        some (setOffset (tableOf [2, 40, 20, 30]) 1 p) :=
  cleanCorruptedIndices_repairs_single (markedBuffer [2, 10, 20, 30]) (tableOf [2, 40, 20, 30])
    40 1 (by decide) (by decide) (by decide) (by decide) (by decide) (by decide) (by decide)
    ⟨10, by decide, by decide, by decide⟩


/-- C7 (as amended): in the swap scenario (true offsets `a < b < c < d`, the
marker at `a`, `c` and `d`, no marker strictly between `c` and `d`, table
`[a, c, b, d]` at block positions `[0, 1, 2, 3]`) the repair returns the
3-entry table `[a, c, d]` at block positions `[0, 1, 3]`: the interior scan
takes entry 2 (offset `b`) for the corrupted one, finds no marker strictly
between `c` and `d`, and removes it. -/
theorem cleanCorruptedIndices_swap (compData : Nat → Nat) (dataBlockLength : Int)
    (a b c d : Nat) (hab : a < b) (hbc : b < c) (hcd : c < d) (hd : d < UINT_MAX)
    (hma : markerAt compData a) (hmc : markerAt compData c) (hmd : markerAt compData d)
    (hnone : ∀ x, x < d → c < x → ¬ markerAt compData x) :
    cleanCorruptedIndices compData
      [{ jpegIndex := a, blockIndex := 0 }, { jpegIndex := c, blockIndex := 1 },
       { jpegIndex := b, blockIndex := 2 }, { jpegIndex := d, blockIndex := 3 }]
      dataBlockLength =
    some [{ jpegIndex := a, blockIndex := 0 }, { jpegIndex := c, blockIndex := 1 },
          { jpegIndex := d, blockIndex := 3 }] := by
  have hsearch : searchSubRegion compData c d = UINT_MAX :=
    searchSubRegion_none compData c d (by omega) (by omega) (fun x h1 h2 => hnone x h2 h1)
  have hfa := hasJpegFlag_of_markerAt (show a < UINT_MAX by omega) hma
  have hfc := hasJpegFlag_of_markerAt (show c < UINT_MAX by omega) hmc
  have hfd := hasJpegFlag_of_markerAt hd hmd
  have hmono : monotonicityPass compData
      [{ jpegIndex := a, blockIndex := 0 }, { jpegIndex := c, blockIndex := 1 },
       { jpegIndex := b, blockIndex := 2 }, { jpegIndex := d, blockIndex := 3 }]
      dataBlockLength =
      some [{ jpegIndex := a, blockIndex := 0 }, { jpegIndex := c, blockIndex := 1 },
            { jpegIndex := d, blockIndex := 3 }] := by
    have hre : replaceOrErase
        [{ jpegIndex := a, blockIndex := 0 }, { jpegIndex := c, blockIndex := 1 },
         { jpegIndex := b, blockIndex := 2 }, { jpegIndex := d, blockIndex := 3 }] 2
        (searchSubRegion compData c d) =
        some [{ jpegIndex := a, blockIndex := 0 }, { jpegIndex := c, blockIndex := 1 },
              { jpegIndex := d, blockIndex := 3 }] := by
      rw [hsearch]
      exact replaceOrErase_erase (by simp)
    have hfix := monoLoop_step_fix compData 4 1 2
      [{ jpegIndex := a, blockIndex := 0 }, { jpegIndex := c, blockIndex := 1 },
       { jpegIndex := b, blockIndex := 2 }, { jpegIndex := d, blockIndex := 3 }]
      [{ jpegIndex := a, blockIndex := 0 }, { jpegIndex := c, blockIndex := 1 },
       { jpegIndex := d, blockIndex := 3 }]
      { jpegIndex := c, blockIndex := 1 } { jpegIndex := b, blockIndex := 2 }
      { jpegIndex := d, blockIndex := 3 } { jpegIndex := c, blockIndex := 1 }
      { jpegIndex := d, blockIndex := 3 }
      (by simp) (by simp) rfl rfl hbc rfl (by simp [hcd]) rfl rfl hre
    have hdone := monoLoop_done compData 4 (2 + 1)
      [{ jpegIndex := a, blockIndex := 0 }, { jpegIndex := c, blockIndex := 1 },
       { jpegIndex := d, blockIndex := 3 }] (by simp) (by simp)
    have hloop := hfix.trans hdone
    unfold monotonicityPass monoFirst monoLast
    simp only [List.getElem?_cons_zero, List.getElem?_cons_succ, Option.bind_eq_bind,
      Option.some_bind]
    rw [if_neg (show ¬ a > c by omega)]
    simp only [Option.pure_def, Option.some_bind, List.length_cons, List.length_nil]
    rw [hloop]
    simp only [Option.some_bind, sizeMinus, List.length_cons, List.length_nil]
    simp only [Nat.reduceAdd, Nat.reduceLeDiff, if_true, Nat.reduceSub,
      List.getElem?_cons_zero, List.getElem?_cons_succ, Option.some_bind]
    rw [if_neg (show ¬ c > d by omega)]
  have hmarker : markerPass compData
      [{ jpegIndex := a, blockIndex := 0 }, { jpegIndex := c, blockIndex := 1 },
       { jpegIndex := d, blockIndex := 3 }] dataBlockLength =
      some [{ jpegIndex := a, blockIndex := 0 }, { jpegIndex := c, blockIndex := 1 },
            { jpegIndex := d, blockIndex := 3 }] := by
    apply markerPass_noop compData _ dataBlockLength (by simp)
    intro k e he
    have hmem := List.getElem?_mem he
    simp only [List.mem_cons, List.mem_singleton, List.not_mem_nil, or_false] at hmem
    rcases hmem with rfl | rfl | rfl
    · exact hfa
    · exact hfc
    · exact hfd
  unfold cleanCorruptedIndices
  simp only [hmono, Option.bind_eq_bind, Option.some_bind, hmarker]

/-- C7 (as amended) at a concrete input: true offsets 2, 10, 20, 30. -/
theorem cleanCorruptedIndices_swap_witness :
    cleanCorruptedIndices (markedBuffer [2, 10, 20, 30])
      [{ jpegIndex := 2, blockIndex := 0 }, { jpegIndex := 20, blockIndex := 1 },
       { jpegIndex := 10, blockIndex := 2 }, { jpegIndex := 30, blockIndex := 3 }] 40 =
    some [{ jpegIndex := 2, blockIndex := 0 }, { jpegIndex := 20, blockIndex := 1 },
          { jpegIndex := 30, blockIndex := 3 }] :=
  cleanCorruptedIndices_swap (markedBuffer [2, 10, 20, 30]) 40 2 10 20 30
    (by decide) (by decide) (by decide) (by decide) (by decide) (by decide) (by decide)
    (by decide)

/-- C7 (counterexample to the claim as stated): with the markers exactly at
the true offsets `2 < 10 < 20 < 30` and the table `[2, 20, 10, 30]`, the
repaired table is `[2, 20, 30]` at block positions `[0, 1, 3]`; it does not
hold every block position with its true offset: position 2 is gone and
position 1 is paired with offset 20, the stream of block 2. -/
theorem cleanCorruptedIndices_swap_not_restored :
    cleanCorruptedIndices (markedBuffer [2, 10, 20, 30]) (tableOf [2, 20, 10, 30]) 40 =
      some [{ jpegIndex := 2, blockIndex := 0 }, { jpegIndex := 20, blockIndex := 1 },
            { jpegIndex := 30, blockIndex := 3 }] ∧
    (∀ x, x < 40 → (markerAt (markedBuffer [2, 10, 20, 30]) x ↔ x ∈ [2, 10, 20, 30])) ∧
    ¬ ∃ out, cleanCorruptedIndices (markedBuffer [2, 10, 20, 30]) (tableOf [2, 20, 10, 30]) 40 =
        some out ∧ ∀ e, e ∈ tableOf [2, 10, 20, 30] → e ∈ out := by
  have h : cleanCorruptedIndices (markedBuffer [2, 10, 20, 30]) (tableOf [2, 20, 10, 30]) 40 =
      some [{ jpegIndex := 2, blockIndex := 0 }, { jpegIndex := 20, blockIndex := 1 },
            { jpegIndex := 30, blockIndex := 3 }] := by decide
  refine ⟨h, by decide, ?_⟩
  rintro ⟨out, hout, hall⟩
  rw [h] at hout
  cases hout
  exact absurd (hall { jpegIndex := 10, blockIndex := 1 } (by decide)) (by decide)


/-- A property of tables kept by every single repair (`replaceOrErase` of an
entry with the result of the search of its region) is kept by the interior
loop of the monotonicity pass. -/
theorem monoLoop_invariant (compData : Nat → Nat) (d : Int) (M : List indexPair → Prop)
    (hM : ∀ (T T' : List indexPair) (j : Nat), M T → j < T.length →
      replaceOrErase T j (searchSubRegion compData (leftBound T j) (rightBound T d j)) = some T' →
      M T') (fuel : Nat) :
    ∀ (i : Nat) (T out : List indexPair), 1 ≤ i → monoLoop compData fuel i T = some out →
      M T → M out := by
  induction fuel with
  | zero =>
    intro i T out _ h hT
    rw [monoLoop] at h
    split at h
    · cases h
    · cases h
      exact hT
  | succ fuel ih =>
    intro i T out hi h hT
    rw [monoLoop] at h
    split at h
    · cases ha : T[i]? with
      | none => simp [ha] at h
      | some a =>
        cases hb : T[i + 1]? with
        | none => simp [ha, hb] at h
        | some b =>
          simp only [ha, hb, Option.bind_eq_bind, Option.some_bind] at h
          split at h
          · cases hc : T[i + 2]? with
            | none => simp [hc] at h
            | some c =>
              simp only [hc, Option.some_bind] at h
              generalize hj : (if a.jpegIndex < c.jpegIndex then i + 1 else i) = j at h
              have hji : i ≤ j := by
                rw [← hj]
                split <;> omega
              cases hl : T[j - 1]? with
              | none => simp [hl] at h
              | some l =>
                cases hr : T[j + 1]? with
                | none => simp [hl, hr] at h
                | some r =>
                  simp only [hl, hr, Option.some_bind] at h
                  cases hre : replaceOrErase T j
                      (searchSubRegion compData l.jpegIndex r.jpegIndex) with
                  | none => simp [hre] at h
                  | some T' =>
                    simp only [hre, Option.some_bind] at h
                    have hjlen : j + 1 < T.length := (List.getElem?_eq_some.mp hr).1
                    have hL : leftBound T j = l.jpegIndex := leftBound_pos (by omega) hl
                    have hR : rightBound T d j = r.jpegIndex :=
                      rightBound_inner d (by omega) hr
                    have hT' : M T' := hM T T' j hT (by omega) (by rw [hL, hR]; exact hre)
                    exact ih (j + 1) T' out (by omega) h hT'
          · exact ih (i + 1) T out (by omega) h hT
    · cases h
      exact hT

theorem markerLoop_invariant (compData : Nat → Nat) (d : Int) (M : List indexPair → Prop)
    (hM : ∀ (T T' : List indexPair) (j : Nat), M T → j < T.length →
      replaceOrErase T j (searchSubRegion compData (leftBound T j) (rightBound T d j)) = some T' →
      M T') (fuel : Nat) :
    ∀ (i : Nat) (T out : List indexPair), 1 ≤ i → markerLoop compData fuel i T = some out →
      M T → M out := by
  induction fuel with
  | zero =>
    intro i T out _ h hT
    rw [markerLoop] at h
    split at h
    · cases h
    · cases h
      exact hT
  | succ fuel ih =>
    intro i T out hi h hT
    rw [markerLoop] at h
    split at h
    · cases ha : T[i]? with
      | none => simp [ha] at h
      | some a =>
        simp only [ha, Option.bind_eq_bind, Option.some_bind] at h
        split at h
        · cases hl : T[i - 1]? with
          | none => simp [hl] at h
          | some l =>
            cases hr : T[i + 1]? with
            | none => simp [hl, hr] at h
            | some r =>
              simp only [hl, hr, Option.some_bind] at h
              cases hre : replaceOrErase T i
                  (searchSubRegion compData l.jpegIndex r.jpegIndex) with
              | none => simp [hre] at h
              | some T' =>
                simp only [hre, Option.some_bind] at h
                have hjlen : i + 1 < T.length := (List.getElem?_eq_some.mp hr).1
                have hL : leftBound T i = l.jpegIndex := leftBound_pos (by omega) hl
                have hR : rightBound T d i = r.jpegIndex :=
                  rightBound_inner d (by omega) hr
                have hT' : M T' := hM T T' i hT (by omega) (by rw [hL, hR]; exact hre)
                exact ih (i + 1) T' out (by omega) h hT'
        · exact ih (i + 1) T out (by omega) h hT
    · cases h
      exact hT


theorem le_of_getElem?_sizeMinus {T : List indexPair} {k : Nat} {x : indexPair}
    (hk : k ≤ 18446744073709551616) (h : T[sizeMinus T k]? = some x) : k ≤ T.length := by
  by_contra hlt
  have h1 := sizeMinus_of_gt (show T.length < k by omega) hk
  rw [List.getElem?_eq_none h1] at h
  cases h

/-- The repair of the first entry, as both passes do it. -/
theorem first_repair_region {T : List indexPair} {e1 : indexPair} (d : Int)
    (h1 : T[1]? = some e1) :
    leftBound T 0 = 0 ∧ rightBound T d 0 = e1.jpegIndex ∧ 0 < T.length := by
  have hlen : 1 < T.length := (List.getElem?_eq_some.mp h1).1
  exact ⟨leftBound_zero T, rightBound_inner d (by omega) h1, by omega⟩

/-- The repair of the last entry, as both passes do it. -/
theorem last_repair_region {T : List indexPair} {p : indexPair} (d : Int)
    (hp : T[sizeMinus T 2]? = some p) :
    sizeMinus T 1 = T.length - 1 ∧ leftBound T (T.length - 1) = p.jpegIndex ∧
      rightBound T d (T.length - 1) = intToU32 d ∧ T.length - 1 < T.length := by
  have h2 : 2 ≤ T.length := le_of_getElem?_sizeMinus (by decide) hp
  rw [sizeMinus_of_le h2] at hp
  refine ⟨sizeMinus_of_le (by omega), ?_, rightBound_last d (by omega), by omega⟩
  apply leftBound_pos (by omega)
  have : T.length - 1 - 1 = T.length - 2 := by omega
  rw [this]
  exact hp

theorem monoFirst_invariant (compData : Nat → Nat) (d : Int) (M : List indexPair → Prop)
    (hM : ∀ (T T' : List indexPair) (j : Nat), M T → j < T.length →
      replaceOrErase T j (searchSubRegion compData (leftBound T j) (rightBound T d j)) = some T' →
      M T') (T out : List indexPair)
    (h : monoFirst compData T = some out) (hT : M T) : M out := by
  unfold monoFirst at h
  cases h0 : T[0]? with
  | none => simp [h0] at h
  | some e0 =>
    cases h1 : T[1]? with
    | none => simp [h0, h1] at h
    | some e1 =>
      simp only [h0, h1, Option.bind_eq_bind, Option.some_bind] at h
      obtain ⟨hL, hR, hlen⟩ := first_repair_region d h1
      split at h
      · cases h2 : T[2]? with
        | none => simp [h2] at h
        | some e2 =>
          simp only [h2, Option.some_bind] at h
          split at h
          · exact hM T out 0 hT hlen (by rw [hL, hR]; exact h)
          · cases h
            exact hT
      · cases h
        exact hT

theorem monoLast_invariant (compData : Nat → Nat) (d : Int) (M : List indexPair → Prop)
    (hM : ∀ (T T' : List indexPair) (j : Nat), M T → j < T.length →
      replaceOrErase T j (searchSubRegion compData (leftBound T j) (rightBound T d j)) = some T' →
      M T') (T out : List indexPair)
    (h : monoLast compData T d = some out) (hT : M T) : M out := by
  unfold monoLast at h
  cases hp : T[sizeMinus T 2]? with
  | none => simp [hp] at h
  | some p =>
    cases hq : T[sizeMinus T 1]? with
    | none => simp [hp, hq] at h
    | some q =>
      simp only [hp, hq, Option.bind_eq_bind, Option.some_bind] at h
      obtain ⟨hs1, hL2, hR2, hlen2⟩ := last_repair_region d hp
      split at h
      · rw [hs1] at h
        exact hM T out _ hT hlen2 (by rw [hL2, hR2]; exact h)
      · cases h
        exact hT

theorem markerFirst_invariant (compData : Nat → Nat) (d : Int) (M : List indexPair → Prop)
    (hM : ∀ (T T' : List indexPair) (j : Nat), M T → j < T.length →
      replaceOrErase T j (searchSubRegion compData (leftBound T j) (rightBound T d j)) = some T' →
      M T') (T out : List indexPair)
    (h : markerFirst compData T = some out) (hT : M T) : M out := by
  unfold markerFirst at h
  cases h0 : T[0]? with
  | none => simp [h0] at h
  | some e0 =>
    simp only [h0, Option.bind_eq_bind, Option.some_bind] at h
    split at h
    · cases h1 : T[1]? with
      | none => simp [h1] at h
      | some e1 =>
        simp only [h1, Option.some_bind] at h
        obtain ⟨hL, hR, hlen⟩ := first_repair_region d h1
        exact hM T out 0 hT hlen (by rw [hL, hR]; exact h)
    · cases h
      exact hT

theorem markerLast_invariant (compData : Nat → Nat) (d : Int) (M : List indexPair → Prop)
    (hM : ∀ (T T' : List indexPair) (j : Nat), M T → j < T.length →
      replaceOrErase T j (searchSubRegion compData (leftBound T j) (rightBound T d j)) = some T' →
      M T') (T out : List indexPair)
    (h : markerLast compData T d = some out) (hT : M T) : M out := by
  unfold markerLast at h
  cases hq : T[sizeMinus T 1]? with
  | none => simp [hq] at h
  | some q =>
    simp only [hq, Option.bind_eq_bind, Option.some_bind] at h
    split at h
    · cases hp : T[sizeMinus T 2]? with
      | none => simp [hp] at h
      | some p =>
        simp only [hp, Option.some_bind] at h
        obtain ⟨hs1, hL2, hR2, hlen2⟩ := last_repair_region d hp
        rw [hs1] at h
        exact hM T out _ hT hlen2 (by rw [hL2, hR2]; exact h)
    · cases h
      exact hT

/-- The three stages of each pass, made explicit. -/
theorem monotonicityPass_eq_some {compData : Nat → Nat} {d : Int} {T out : List indexPair}
    (h : monotonicityPass compData T d = some out) :
    ∃ T1 T2, monoFirst compData T = some T1 ∧ monoLoop compData T1.length 1 T1 = some T2 ∧
      monoLast compData T2 d = some out := by
  unfold monotonicityPass at h
  cases h1 : monoFirst compData T with
  | none => simp [h1] at h
  | some T1 =>
    simp only [h1, Option.bind_eq_bind, Option.some_bind] at h
    cases h2 : monoLoop compData T1.length 1 T1 with
    | none => simp [h2] at h
    | some T2 =>
      simp only [h2, Option.some_bind] at h
      exact ⟨T1, T2, rfl, h2, h⟩

theorem markerPass_eq_some {compData : Nat → Nat} {d : Int} {T out : List indexPair}
    (h : markerPass compData T d = some out) :
    ∃ T1 T2, markerFirst compData T = some T1 ∧ markerLoop compData T1.length 1 T1 = some T2 ∧
      markerLast compData T2 d = some out := by
  unfold markerPass at h
  cases h1 : markerFirst compData T with
  | none => simp [h1] at h
  | some T1 =>
    simp only [h1, Option.bind_eq_bind, Option.some_bind] at h
    cases h2 : markerLoop compData T1.length 1 T1 with
    | none => simp [h2] at h
    | some T2 =>
      simp only [h2, Option.some_bind] at h
      exact ⟨T1, T2, rfl, h2, h⟩

theorem cleanCorruptedIndices_eq_some {compData : Nat → Nat} {d : Int} {T out : List indexPair}
    (h : cleanCorruptedIndices compData T d = some out) :
    ∃ T1, monotonicityPass compData T d = some T1 ∧ markerPass compData T1 d = some out := by
  unfold cleanCorruptedIndices at h
  cases h1 : monotonicityPass compData T d with
  | none => simp [h1] at h
  | some T1 =>
    simp only [h1, Option.bind_eq_bind, Option.some_bind] at h
    exact ⟨T1, rfl, h⟩

theorem monotonicityPass_invariant (compData : Nat → Nat) (d : Int) (M : List indexPair → Prop)
    (hM : ∀ (T T' : List indexPair) (j : Nat), M T → j < T.length →
      replaceOrErase T j (searchSubRegion compData (leftBound T j) (rightBound T d j)) = some T' →
      M T') (T out : List indexPair)
    (h : monotonicityPass compData T d = some out) (hT : M T) : M out := by
  obtain ⟨T1, T2, h1, h2, h3⟩ := monotonicityPass_eq_some h
  exact monoLast_invariant compData d M hM T2 out h3
    (monoLoop_invariant compData d M hM _ 1 T1 T2 (le_refl _) h2
      (monoFirst_invariant compData d M hM T T1 h1 hT))

theorem markerPass_invariant (compData : Nat → Nat) (d : Int) (M : List indexPair → Prop)
    (hM : ∀ (T T' : List indexPair) (j : Nat), M T → j < T.length →
      replaceOrErase T j (searchSubRegion compData (leftBound T j) (rightBound T d j)) = some T' →
      M T') (T out : List indexPair)
    (h : markerPass compData T d = some out) (hT : M T) : M out := by
  obtain ⟨T1, T2, h1, h2, h3⟩ := markerPass_eq_some h
  exact markerLast_invariant compData d M hM T2 out h3
    (markerLoop_invariant compData d M hM _ 1 T1 T2 (le_refl _) h2
      (markerFirst_invariant compData d M hM T T1 h1 hT))

/-- A property of tables kept by every single repair (`replaceOrErase` of an
entry `j` with the result of the search of its bounded region) is kept by
`cleanCorruptedIndices`. -/
theorem cleanCorruptedIndices_invariant (compData : Nat → Nat) (d : Int)
    (M : List indexPair → Prop)
    (hM : ∀ (T T' : List indexPair) (j : Nat), M T → j < T.length →
      replaceOrErase T j (searchSubRegion compData (leftBound T j) (rightBound T d j)) = some T' →
      M T') (T out : List indexPair)
    (h : cleanCorruptedIndices compData T d = some out) (hT : M T) : M out := by
  obtain ⟨T1, h1, h2⟩ := cleanCorruptedIndices_eq_some h
  exact markerPass_invariant compData d M hM T1 out h2
    (monotonicityPass_invariant compData d M hM T T1 h1 hT)


theorem replaceOrErase_some (T : List indexPair) {i : Nat} (v : Nat) (hi : i < T.length) :
    ∃ T', replaceOrErase T i v = some T' := by
  obtain ⟨e, he⟩ := exists_getElem? hi
  by_cases hv : v = UINT_MAX
  · rw [hv]
    exact ⟨_, replaceOrErase_erase hi⟩
  · exact ⟨_, replaceOrErase_replace hv he⟩

/-- What the assembly loop hands to the codec for an entry with a successor at
a larger offset: the bytes at offsets `idxs[k] .. idxs[k+1] - 2`, one fewer
than the distance between the two offsets. -/
theorem pairStream_eq (compData : Nat → Nat) (idxs : List indexPair) (k : Nat)
    (a b : indexPair) (ha : idxs[k]? = some a) (hb : idxs[k + 1]? = some b)
    (hlt : a.jpegIndex < b.jpegIndex) :
    pairStream compData idxs k =
      some ((List.range (b.jpegIndex - a.jpegIndex - 1)).map
        (fun t => compData (a.jpegIndex + t))) := by
  unfold pairStream vectorRange
  simp only [ha, hb, Option.bind_eq_bind, Option.some_bind]
  rw [if_pos (by omega)]
  have : ((b.jpegIndex : Int) - 1 - (a.jpegIndex : Int)).toNat =
      b.jpegIndex - a.jpegIndex - 1 := by omega
  rw [this]

/-- What `main` hands to the codec for the last entry: the bytes at offsets
`idxs[k] .. dataBlockLength - 2`. -/
theorem lastStream_eq (compData : Nat → Nat) (idxs : List indexPair) (dataBlockLength : Int)
    (a : indexPair) (h1 : 1 ≤ idxs.length) (ha : idxs[idxs.length - 1]? = some a)
    (hlt : (a.jpegIndex : Int) < dataBlockLength) :
    lastStream compData idxs dataBlockLength =
      some ((List.range (dataBlockLength - 1 - a.jpegIndex).toNat).map
        (fun t => compData (a.jpegIndex + t))) := by
  unfold lastStream vectorRange
  simp only [sizeMinus_of_le h1, ha, Option.bind_eq_bind, Option.some_bind]
  rw [if_pos (by omega)]


/-- For a string of at least 4 characters, `compareTail4` tests for the suffix. -/
theorem compareTail4_iff (s suffix : List Char) (hs : 4 ≤ s.length) (h4 : suffix.length = 4) :
    compareTail4 s suffix = true ↔ List.IsSuffix suffix s := by
  have hd : ((s.drop (s.length - 4)).take 4) = s.drop (s.length - 4) := by
    apply List.take_of_length_le
    rw [List.length_drop]
    omega
  unfold compareTail4
  rw [hd, List.suffix_iff_eq_drop, h4]
  constructor
  · intro h
    exact (beq_iff_eq.mp h).symm
  · intro h
    exact beq_iff_eq.mpr h.symm

/-- C12 (as amended): with the output path omitted (`argc = 2`) the resolved
path is the input path followed by `".jpg"`; a supplied path of at least 5
characters that ends in `".jpg"` or `".JPG"` is kept unchanged; every other
supplied path, among them every one of 4 characters or fewer, is followed by
`".jpg"`. -/
theorem outputPath_resolution (argc : Int) (argv1 argv2 : List Char) :
    (argc = 2 → outputPath argc argv1 argv2 = argv1 ++ jpgLower) ∧
    (argc ≠ 2 → 5 ≤ argv2.length →
      (List.IsSuffix jpgLower argv2 ∨ List.IsSuffix jpgUpper argv2) →
      outputPath argc argv1 argv2 = argv2) ∧
    (argc ≠ 2 → 5 ≤ argv2.length →
      ¬ (List.IsSuffix jpgLower argv2 ∨ List.IsSuffix jpgUpper argv2) →
      outputPath argc argv1 argv2 = argv2 ++ jpgLower) ∧
    (argc ≠ 2 → argv2.length < 5 → outputPath argc argv1 argv2 = argv2 ++ jpgLower) := by
  refine ⟨?_, ?_, ?_, ?_⟩
  · intro h
    simp [outputPath, h]
  · intro h h5 hsuf
    have hl := compareTail4_iff argv2 jpgLower (by omega) rfl
    have hu := compareTail4_iff argv2 jpgUpper (by omega) rfl
    have hc : (compareTail4 argv2 jpgLower || compareTail4 argv2 jpgUpper) = true := by
      rcases hsuf with h1 | h1
      · simp [hl.mpr h1]
      · simp [hu.mpr h1]
    have hlen : ¬ argv2.length < 5 := by omega
    simp [outputPath, h, hc, hlen]
  · intro h h5 hsuf
    have hl := compareTail4_iff argv2 jpgLower (by omega) rfl
    have hu := compareTail4_iff argv2 jpgUpper (by omega) rfl
    have hc : (compareTail4 argv2 jpgLower || compareTail4 argv2 jpgUpper) = false := by
      cases h1 : compareTail4 argv2 jpgLower
      · cases h2 : compareTail4 argv2 jpgUpper
        · rfl
        · exact absurd (Or.inr (hu.mp h2)) hsuf
      · exact absurd (Or.inl (hl.mp h1)) hsuf
    simp [outputPath, h, hc]
  · intro h h5
    simp [outputPath, h, h5]

/-- C12 (as amended) at concrete inputs: `"result"` resolves to `"result.jpg"`
and `"a.JPG"` stays. -/
theorem outputPath_resolution_witness :
    outputPath 3 ['i', 'n'] ['r', 'e', 's', 'u', 'l', 't'] =
      ['r', 'e', 's', 'u', 'l', 't'] ++ jpgLower ∧
    outputPath 3 ['i', 'n'] ['a', '.', 'J', 'P', 'G'] = ['a', '.', 'J', 'P', 'G'] :=
  ⟨(outputPath_resolution 3 ['i', 'n'] ['r', 'e', 's', 'u', 'l', 't']).2.2.1
      (by decide) (by decide) (by decide),
   (outputPath_resolution 3 ['i', 'n'] ['a', '.', 'J', 'P', 'G']).2.1
      (by decide) (by decide) (by decide)⟩

/-- C12 (counterexample to the claim as stated): the supplied path `".jpg"`
ends in `".jpg"` but has fewer than 5 characters, and resolves to
`".jpg.jpg"`, not to itself. -/
theorem outputPath_short_suffix_appended :
    List.IsSuffix jpgLower ['.', 'j', 'p', 'g'] ∧
    outputPath 3 ['i', 'n'] ['.', 'j', 'p', 'g'] =
      ['.', 'j', 'p', 'g', '.', 'j', 'p', 'g'] ∧
    outputPath 3 ['i', 'n'] ['.', 'j', 'p', 'g'] ≠ ['.', 'j', 'p', 'g'] := by
  decide


/-- Column and row of a block position inside the grid. -/
theorem grid_cell (bpr bpc p : Int) (hr : 0 < bpr) (hp0 : 0 ≤ p) (hp : p < bpr * bpc) :
    Int.tmod p bpr = p % bpr ∧ Int.fdiv p bpr = p / bpr ∧
    0 ≤ p % bpr ∧ p % bpr < bpr ∧ 0 ≤ p / bpr ∧ p / bpr < bpc ∧
    p = bpr * (p / bpr) + p % bpr := by
  refine ⟨Int.tmod_eq_emod hp0 (le_of_lt hr), Int.fdiv_eq_ediv p (le_of_lt hr),
    Int.emod_nonneg p (ne_of_gt hr), Int.emod_lt_of_pos p hr,
    Int.ediv_nonneg hp0 (le_of_lt hr), ?_, (Int.ediv_add_emod p bpr).symm⟩
  apply Int.ediv_lt_of_lt_mul hr
  rw [Int.mul_comm]
  exact hp

/-- Two cells of width `w` that share a coordinate are the same cell. -/
theorem cell_eq_of_shared (w c c' t : Int) (hw : 0 < w)
    (h1 : w * c ≤ t) (h2 : t < w * c + w) (h3 : w * c' ≤ t) (h4 : t < w * c' + w) :
    c = c' := by
  rcases lt_trichotomy c c' with h | h | h
  · have : w * (c + 1) ≤ w * c' := Int.mul_le_mul_of_nonneg_left (by omega) (le_of_lt hw)
    rw [Int.mul_add, Int.mul_one] at this
    omega
  · exact h
  · have : w * (c' + 1) ≤ w * c := Int.mul_le_mul_of_nonneg_left (by omega) (le_of_lt hw)
    rw [Int.mul_add, Int.mul_one] at this
    omega

/-- C13: for positive grid and block sizes and every block position `p` with
`0 <= p < blocksPerRow*blocksPerColumn`, the block is written at the rectangle
with `x = pixelsPerBlockHorizontal*(p mod blocksPerRow)`,
`y = pixelsPerBlockVertical*floor(p / blocksPerRow)` and size
`pixelsPerBlockHorizontal x pixelsPerBlockVertical`; the rectangle lies inside
the canvas, and the rectangles of two distinct positions share no pixel. -/
theorem blockRect_placement (bpr bpc pixH pixV p : Int)
    (hr : 0 < bpr) (_hc : 0 < bpc) (hH : 0 < pixH) (hV : 0 < pixV)
    (hp0 : 0 ≤ p) (hp : p < bpr * bpc) :
    (blockRect bpr pixH pixV p).x = pixH * (p % bpr) ∧
    (blockRect bpr pixH pixV p).y = pixV * (p / bpr) ∧
    (blockRect bpr pixH pixV p).width = pixH ∧
    (blockRect bpr pixH pixV p).height = pixV ∧
    (∀ px py, (blockRect bpr pixH pixV p).contains px py →
      (canvasRect bpr bpc pixH pixV).contains px py) ∧
    (∀ q, 0 ≤ q → q < bpr * bpc → q ≠ p → ∀ px py,
      ¬ ((blockRect bpr pixH pixV p).contains px py ∧
         (blockRect bpr pixH pixV q).contains px py)) := by
  obtain ⟨ht, hf, hc0, hc1, hr0, hr1, hpe⟩ := grid_cell bpr bpc p hr hp0 hp
  have hx : (blockRect bpr pixH pixV p).x = pixH * (p % bpr) := by
    simp [blockRect, ht]
  have hy : (blockRect bpr pixH pixV p).y = pixV * (p / bpr) := by
    simp [blockRect, hf]
  refine ⟨hx, hy, rfl, rfl, ?_, ?_⟩
  · intro px py hin
    unfold Rect.contains at hin ⊢
    rw [hx, hy] at hin
    obtain ⟨h1, h2, h3, h4⟩ := hin
    have hw : (blockRect bpr pixH pixV p).width = pixH := rfl
    have hh : (blockRect bpr pixH pixV p).height = pixV := rfl
    rw [hw] at h2
    rw [hh] at h4
    have e1 : 0 ≤ pixH * (p % bpr) := Int.mul_nonneg (le_of_lt hH) hc0
    have e2 : pixH * (p % bpr + 1) ≤ pixH * bpr :=
      Int.mul_le_mul_of_nonneg_left (by omega) (le_of_lt hH)
    have e3 : 0 ≤ pixV * (p / bpr) := Int.mul_nonneg (le_of_lt hV) hr0
    have e4 : pixV * (p / bpr + 1) ≤ pixV * bpc :=
      Int.mul_le_mul_of_nonneg_left (by omega) (le_of_lt hV)
    rw [Int.mul_add, Int.mul_one] at e2 e4
    simp only [canvasRect]
    rw [Int.mul_comm bpr pixH, Int.mul_comm bpc pixV]
    refine ⟨by omega, by omega, by omega, by omega⟩
  · intro q hq0 hq hne px py hboth
    obtain ⟨ht', hf', _, _, _, _, hqe⟩ := grid_cell bpr bpc q hr hq0 hq
    obtain ⟨⟨a1, a2, a3, a4⟩, ⟨b1, b2, b3, b4⟩⟩ := hboth
    simp only [blockRect, ht, hf, ht', hf'] at a1 a2 a3 a4 b1 b2 b3 b4
    have hcol := cell_eq_of_shared pixH (p % bpr) (q % bpr) px hH a1 a2 b1 b2
    have hrow := cell_eq_of_shared pixV (p / bpr) (q / bpr) py hV a3 a4 b3 b4
    apply hne
    rw [hqe, hpe, hcol, hrow]

/-- C13 at a concrete input: the 2x2 grid of 256x256 blocks, position 3. -/
theorem blockRect_placement_witness :
    (blockRect 2 256 256 3).x = 256 * (3 % 2) ∧
    (blockRect 2 256 256 3).y = 256 * (3 / 2) ∧
    (blockRect 2 256 256 3).width = 256 ∧
    (blockRect 2 256 256 3).height = 256 ∧
    (∀ px py, (blockRect 2 256 256 3).contains px py →
      (canvasRect 2 2 256 256).contains px py) ∧
    (∀ q, 0 ≤ q → q < 2 * 2 → q ≠ 3 → ∀ px py,
      ¬ ((blockRect 2 256 256 3).contains px py ∧
         (blockRect 2 256 256 q).contains px py)) :=
  blockRect_placement 2 2 256 256 3 (by decide) (by decide) (by decide) (by decide)
    (by decide) (by decide)


/-- On a non-empty table with strictly increasing offsets the assembly loop
reads no entry outside the table and makes one decode attempt for each entry
that has a successor. -/
theorem assembleLoop_total (compData : Nat → Nat) (idxs : List indexPair)
    (h1 : 1 ≤ idxs.length)
    (hinc : ∀ (k : Nat) (a b : indexPair), idxs[k]? = some a → idxs[k + 1]? = some b →
      a.jpegIndex < b.jpegIndex) :
    ∀ (n f k : Nat) (acc : List (List Nat × Int)), k + n + 1 = idxs.length → n ≤ f →
      ∃ res, assembleLoop compData idxs f k acc = some res ∧ res.length = acc.length + n := by
  intro n
  induction n with
  | zero =>
    intro f k acc hk _
    have hc : ¬ k < sizeMinus idxs 1 := by
      rw [sizeMinus_of_le h1]
      omega
    cases f with
    | zero => exact ⟨acc, by rw [assembleLoop, if_neg hc], rfl⟩
    | succ f => exact ⟨acc, by rw [assembleLoop, if_neg hc], rfl⟩
  | succ n ih =>
    intro f k acc hk hf
    have hc : k < sizeMinus idxs 1 := by
      rw [sizeMinus_of_le h1]
      omega
    obtain ⟨a, ha⟩ := exists_getElem? (show k < idxs.length by omega)
    obtain ⟨b, hb⟩ := exists_getElem? (show k + 1 < idxs.length by omega)
    cases f with
    | zero => omega
    | succ f =>
      obtain ⟨res, hres, hlen⟩ := ih f (k + 1)
        (acc ++ [((List.range (b.jpegIndex - a.jpegIndex - 1)).map
          (fun t => compData (a.jpegIndex + t)), a.blockIndex)]) (by omega) (by omega)
      refine ⟨res, ?_, ?_⟩
      · rw [assembleLoop, if_pos hc, pairStream_eq compData idxs k a b ha hb (hinc k a b ha hb)]
        simp only [ha, Option.bind_eq_bind, Option.some_bind]
        exact hres
      · rw [hlen]
        simp
        omega

/-- On a non-empty table with strictly increasing offsets below
`dataBlockLength` the assembly stage makes exactly one decode attempt per entry. -/
theorem assemble_total (compData : Nat → Nat) (idxs : List indexPair) (dataBlockLength : Int)
    (h1 : 1 ≤ idxs.length)
    (hinc : ∀ (k : Nat) (a b : indexPair), idxs[k]? = some a → idxs[k + 1]? = some b →
      a.jpegIndex < b.jpegIndex)
    (hlast : ∀ a, a ∈ idxs → (a.jpegIndex : Int) < dataBlockLength) :
    ∃ res, assemble compData idxs dataBlockLength = some res ∧ res.length = idxs.length := by
  obtain ⟨acc, hacc, hlen⟩ := assembleLoop_total compData idxs h1 hinc (idxs.length - 1)
    (idxs.length + 1) 0 [] (by omega) (by omega)
  obtain ⟨a, ha⟩ := exists_getElem? (show idxs.length - 1 < idxs.length by omega)
  have hl := lastStream_eq compData idxs dataBlockLength a h1 ha
    (hlast a (List.getElem?_mem ha))
  refine ⟨acc ++ [((List.range (dataBlockLength - 1 - a.jpegIndex).toNat).map
    (fun t => compData (a.jpegIndex + t)), a.blockIndex)], ?_, ?_⟩
  · unfold assemble
    simp only [hacc, hl, sizeMinus_of_le h1, ha, Option.bind_eq_bind, Option.some_bind]
    rfl
  · simp [hlen]
    omega

/-- C14 (the code on the empty table): with zero entries the loop bound
`idxs.size()-1` is `2^64 - 1`, so the loop condition holds for `k = 0` and
the body reads `idxs[0]`, an entry outside the table; the assembly stage has
no defined result, rather than the empty list of decode attempts.  The repair
before it reads `idxs[0]` of the empty table as well. -/
theorem assemble_empty_table (compData : Nat → Nat) (dataBlockLength : Int) :
    sizeMinus ([] : List indexPair) 1 = 18446744073709551615 ∧
    0 < sizeMinus ([] : List indexPair) 1 ∧
    ([] : List indexPair)[0]? = none ∧
    pairStream compData [] 0 = none ∧
    assemble compData [] dataBlockLength = none ∧
    assemble compData [] dataBlockLength ≠ some [] ∧
    cleanCorruptedIndices compData [] dataBlockLength = none := by
  have hs : sizeMinus ([] : List indexPair) 1 = 18446744073709551615 := by decide
  have hp : pairStream compData [] 0 = none := by simp [pairStream]
  have ha : assemble compData [] dataBlockLength = none := by
    unfold assemble
    simp only [List.length_nil, Nat.zero_add]
    rw [assembleLoop, hs, if_pos (by decide), hp]
    rfl
  refine ⟨hs, by rw [hs]; decide, rfl, hp, ha, ?_, ?_⟩
  · rw [ha]
    exact fun h => nomatch h
  · simp [cleanCorruptedIndices, monotonicityPass, monoFirst]


/-- The recorded loop computes the table of `monoLoop`. -/
theorem monoLoopTrace_table (compData : Nat → Nat) (fuel : Nat) :
    ∀ (i : Nat) (T : List indexPair) (ev : List ScanEvent),
      (monoLoopTrace compData fuel i T ev).map Prod.snd = monoLoop compData fuel i T := by
  induction fuel with
  | zero =>
    intro i T ev
    rw [monoLoopTrace, monoLoop]
    split <;> rfl
  | succ fuel ih =>
    intro i T ev
    rw [monoLoopTrace, monoLoop]
    split
    · cases ha : T[i]? with
      | none => simp
      | some a =>
        cases hb : T[i + 1]? with
        | none => simp
        | some b =>
          simp only [Option.bind_eq_bind, Option.some_bind]
          split
          · cases hc : T[i + 2]? with
            | none => simp
            | some c =>
              simp only [Option.some_bind]
              cases hl : T[(if a.jpegIndex < c.jpegIndex then i + 1 else i) - 1]? with
              | none => simp
              | some l =>
                cases hr : T[(if a.jpegIndex < c.jpegIndex then i + 1 else i) + 1]? with
                | none => simp
                | some r =>
                  simp only [Option.some_bind]
                  cases hre : replaceOrErase T (if a.jpegIndex < c.jpegIndex then i + 1 else i)
                      (searchSubRegion compData l.jpegIndex r.jpegIndex) with
                  | none => simp
                  | some T' =>
                    simp only [Option.some_bind]
                    exact ih _ _ _
          · exact ih _ _ _
    · rfl

/-- On a table of at least 2 entries the interior loop of the monotonicity
pass, started at a position `i >= 1`, reads no entry outside the table; it
tests only positions `k` with `i <= k` and `k + 3 <= n`, the first of them `i`
itself when `i + 3 <= n`, and repairs only entries `j` with `i <= j` and
`j + 2 <= n`, where `n` is the length of the table at the start. -/
theorem monoLoopTrace_total (compData : Nat → Nat) (fuel : Nat) :
    ∀ (i : Nat) (T : List indexPair) (ev : List ScanEvent), 1 ≤ i → 2 ≤ T.length →
      T.length ≤ fuel + i →
      ∃ more out, monoLoopTrace compData fuel i T ev = some (ev ++ more, out) ∧
        2 ≤ out.length ∧
        (∀ k, ScanEvent.check k ∈ more → i ≤ k ∧ k + 3 ≤ T.length) ∧
        (∀ j, ScanEvent.repair j ∈ more → i ≤ j ∧ j + 2 ≤ T.length) ∧
        (i + 3 ≤ T.length → ScanEvent.check i ∈ more) := by
  induction fuel with
  | zero =>
    intro i T ev _ h2 hf
    have hc : ¬ i < sizeMinus T 2 := by
      rw [sizeMinus_of_le h2]
      omega
    refine ⟨[], T, ?_, h2, ?_, ?_, ?_⟩
    · rw [monoLoopTrace, if_neg hc, List.append_nil]
    · intro k hk
      cases hk
    · intro j hj
      cases hj
    · intro h
      omega
  | succ fuel ih =>
    intro i T ev hi h2 hf
    by_cases hc : i < sizeMinus T 2
    · rw [sizeMinus_of_le h2] at hc
      obtain ⟨a, ha⟩ := exists_getElem? (show i < T.length by omega)
      obtain ⟨b, hb⟩ := exists_getElem? (show i + 1 < T.length by omega)
      obtain ⟨c, hcc⟩ := exists_getElem? (show i + 2 < T.length by omega)
      have hcond : i < sizeMinus T 2 := by
        rw [sizeMinus_of_le h2]
        exact hc
      by_cases hab : a.jpegIndex > b.jpegIndex
      · generalize hj : (if a.jpegIndex < c.jpegIndex then i + 1 else i) = j
        have hji : i ≤ j ∧ j ≤ i + 1 := by
          rw [← hj]
          split <;> omega
        obtain ⟨l, hl⟩ := exists_getElem? (show j - 1 < T.length by omega)
        obtain ⟨r, hr⟩ := exists_getElem? (show j + 1 < T.length by omega)
        obtain ⟨T', hre⟩ := replaceOrErase_some T
          (searchSubRegion compData l.jpegIndex r.jpegIndex) (show j < T.length by omega)
        have hlen := replaceOrErase_length hre
        obtain ⟨more, out, hrun, hout, hck, hrp, _⟩ := ih (j + 1) T'
          (ev ++ [ScanEvent.check i, ScanEvent.repair j]) (by omega) (by omega) (by omega)
        refine ⟨[ScanEvent.check i, ScanEvent.repair j] ++ more, out, ?_, hout, ?_, ?_, ?_⟩
        · rw [monoLoopTrace, if_pos hcond]
          simp only [ha, hb, hcc, Option.bind_eq_bind, Option.some_bind]
          rw [if_pos hab, hj]
          simp only [hl, hr, hre, Option.some_bind]
          rw [hrun, List.append_assoc]
        · intro k hk
          simp only [List.mem_append, List.mem_cons, List.mem_singleton, List.not_mem_nil,
            or_false] at hk
          rcases hk with (hk | hk) | hk
          · cases hk
            omega
          · cases hk
          · have := hck k hk
            omega
        · intro j' hj'
          simp only [List.mem_append, List.mem_cons, List.mem_singleton, List.not_mem_nil,
            or_false] at hj'
          rcases hj' with (hk | hk) | hk
          · cases hk
          · cases hk
            omega
          · have := hrp j' hk
            omega
        · intro _
          simp
      · obtain ⟨more, out, hrun, hout, hck, hrp, _⟩ := ih (i + 1) T
          (ev ++ [ScanEvent.check i]) (by omega) h2 (by omega)
        refine ⟨[ScanEvent.check i] ++ more, out, ?_, hout, ?_, ?_, ?_⟩
        · rw [monoLoopTrace, if_pos hcond]
          simp only [ha, hb, Option.bind_eq_bind, Option.some_bind]
          rw [if_neg hab, hrun, List.append_assoc]
        · intro k hk
          simp only [List.mem_append, List.mem_singleton] at hk
          rcases hk with hk | hk
          · cases hk
            omega
          · have := hck k hk
            omega
        · intro j' hj'
          simp only [List.mem_append, List.mem_singleton] at hj'
          rcases hj' with hk | hk
          · cases hk
          · have := hrp j' hk
            omega
        · intro _
          simp
    · have hc' := hc
      rw [sizeMinus_of_le h2] at hc'
      refine ⟨[], T, ?_, h2, ?_, ?_, ?_⟩
      · rw [monoLoopTrace, if_neg hc, List.append_nil]
      · intro k hk
        cases hk
      · intro j hj
        cases hj
      · intro h
        omega


/-- C15 (as amended): at a position `i >= 1` of the interior scan where
entry `i` exceeds entry `i+1`: if entry `i` is below entry `i+2`, the scan
skips ahead one position and the repair (search strictly between the offsets
of entries `i` and `i+2`, then replace-or-erase) is applied to entry `i+1`,
the scan going on at `i+2`; otherwise (entry `i` not below entry `i+2`) the
repair (search strictly between the offsets of entries `i-1` and `i+1`) is
applied to entry `i` itself, the scan going on at `i+1`. -/
theorem monoLoop_repair_target (compData : Nat → Nat) (f i : Nat) (T : List indexPair)
    (a b c : indexPair) (hi : 1 ≤ i) (hf : T.length ≤ f + i) (hlen : i + 2 < T.length)
    (ha : T[i]? = some a) (hb : T[i + 1]? = some b) (hc : T[i + 2]? = some c)
    (hab : b.jpegIndex < a.jpegIndex) :
    (a.jpegIndex < c.jpegIndex →
      monoLoop compData f i T =
        (replaceOrErase T (i + 1) (searchSubRegion compData a.jpegIndex c.jpegIndex)).bind
          (monoLoop compData f (i + 2))) ∧
    (¬ a.jpegIndex < c.jpegIndex →
      monoLoop compData f i T =
        (replaceOrErase T i (searchSubRegion compData (offsetAt T (i - 1)) b.jpegIndex)).bind
          (monoLoop compData f (i + 1))) := by
  constructor
  · intro hac
    obtain ⟨T', hre⟩ := replaceOrErase_some T
      (searchSubRegion compData a.jpegIndex c.jpegIndex) (show i + 1 < T.length by omega)
    rw [hre, Option.some_bind]
    exact monoLoop_step_fix compData f i (i + 1) T T' a b c a c hf hlen ha hb hab hc
      (by rw [if_pos hac]) ha hc hre
  · intro hac
    obtain ⟨l, hl⟩ := exists_getElem? (show i - 1 < T.length by omega)
    obtain ⟨T', hre⟩ := replaceOrErase_some T
      (searchSubRegion compData l.jpegIndex b.jpegIndex) (show i < T.length by omega)
    rw [offsetAt_eq hl, hre, Option.some_bind]
    exact monoLoop_step_fix compData f i i T T' a b c l b hf hlen ha hb hab hc
      (by rw [if_neg hac]) hl hb hre

/-- C15 (as amended) at a concrete input: entry 1 (offset 20) exceeds entry 2
(offset 10) and is below entry 3 (offset 30). -/
theorem monoLoop_repair_target_witness :
    (20 < 30 →
      monoLoop (markedBuffer [2, 10, 20, 30]) 4 1 (tableOf [2, 20, 10, 30]) =
        (replaceOrErase (tableOf [2, 20, 10, 30]) (1 + 1)
          (searchSubRegion (markedBuffer [2, 10, 20, 30]) 20 30)).bind
          (monoLoop (markedBuffer [2, 10, 20, 30]) 4 (1 + 2))) ∧
    (¬ 20 < 30 →
      monoLoop (markedBuffer [2, 10, 20, 30]) 4 1 (tableOf [2, 20, 10, 30]) =
        (replaceOrErase (tableOf [2, 20, 10, 30]) 1
          (searchSubRegion (markedBuffer [2, 10, 20, 30])
            (offsetAt (tableOf [2, 20, 10, 30]) (1 - 1)) 10)).bind
          (monoLoop (markedBuffer [2, 10, 20, 30]) 4 (1 + 1))) :=
  monoLoop_repair_target (markedBuffer [2, 10, 20, 30]) 4 1 (tableOf [2, 20, 10, 30])
    { jpegIndex := 20, blockIndex := 1 } { jpegIndex := 10, blockIndex := 2 }
    { jpegIndex := 30, blockIndex := 3 } (by decide) (by decide) (by decide)
    (by decide) (by decide) (by decide) (by decide)

/-- C15 (counterexample to the claim as stated): in the table `[2, 40, 20, 30]`
entry 1 exceeds both entry 2 and entry 3, yet the scan does not skip ahead:
it tests position 1 and repairs entry 1 itself (offset 40 becomes 10, the
first marker between entries 0 and 2); entry 2 is left as it is. -/
theorem monoLoop_double_exceed_repairs_same_entry :
    offsetAt (tableOf [2, 40, 20, 30]) 1 > offsetAt (tableOf [2, 40, 20, 30]) 2 ∧
    offsetAt (tableOf [2, 40, 20, 30]) 1 > offsetAt (tableOf [2, 40, 20, 30]) 3 ∧
    monoLoopTrace (markedBuffer [2, 10, 20, 30]) 4 1 (tableOf [2, 40, 20, 30]) [] =
      some ([ScanEvent.check 1, ScanEvent.repair 1], tableOf [2, 10, 20, 30]) ∧
    monoLoop (markedBuffer [2, 10, 20, 30]) 4 1 (tableOf [2, 40, 20, 30]) =
      some (tableOf [2, 10, 20, 30]) := by
  decide

/-- C16 (as amended): on a table of `n >= 2` entries the interior scan of the
monotonicity pass tests `idxs[i] > idxs[i+1]` only at positions `i` with
`1 <= i` and `i + 3 <= n`, and for `n >= 4` it does test position 1. -/
theorem interior_scan_positions (compData : Nat → Nat) (T : List indexPair)
    (h2 : 2 ≤ T.length) :
    ∃ events out, monoLoopTrace compData T.length 1 T [] = some (events, out) ∧
      monoLoop compData T.length 1 T = some out ∧
      (∀ k, ScanEvent.check k ∈ events → 1 ≤ k ∧ k + 3 ≤ T.length) ∧
      (4 ≤ T.length → ScanEvent.check 1 ∈ events) := by
  obtain ⟨more, out, hrun, _, hck, _, hfirst⟩ :=
    monoLoopTrace_total compData T.length 1 T [] (le_refl _) h2 (by omega)
  rw [List.nil_append] at hrun
  refine ⟨more, out, hrun, ?_, hck, fun h4 => hfirst (by omega)⟩
  rw [← monoLoopTrace_table compData T.length 1 T [], hrun]
  rfl

/-- C16 (as amended) at a concrete input: a 5-entry table. -/
theorem interior_scan_positions_witness :
    ∃ events out,
      monoLoopTrace (markedBuffer [2, 10, 20, 30, 40]) (tableOf [2, 10, 20, 30, 40]).length 1
        (tableOf [2, 10, 20, 30, 40]) [] = some (events, out) ∧
      monoLoop (markedBuffer [2, 10, 20, 30, 40]) (tableOf [2, 10, 20, 30, 40]).length 1
        (tableOf [2, 10, 20, 30, 40]) = some out ∧
      (∀ k, ScanEvent.check k ∈ events → 1 ≤ k ∧ k + 3 ≤ (tableOf [2, 10, 20, 30, 40]).length) ∧
      (4 ≤ (tableOf [2, 10, 20, 30, 40]).length → ScanEvent.check 1 ∈ events) :=
  interior_scan_positions (markedBuffer [2, 10, 20, 30, 40]) (tableOf [2, 10, 20, 30, 40])
    (by decide)

/-- C16 (counterexample to the claim as stated): on the 5-entry table
`[2, 50, 20, 30, 40]` the interior scan tests position 1, flags entry 1 and
repairs it (offset 50 becomes 10), although 1 is not among `2 .. n-3`. -/
theorem interior_scan_repairs_entry_one :
    monoLoopTrace (markedBuffer [2, 10, 20, 30, 40]) 5 1 (tableOf [2, 50, 20, 30, 40]) [] =
      some ([ScanEvent.check 1, ScanEvent.repair 1, ScanEvent.check 2],
        tableOf [2, 10, 20, 30, 40]) ∧
    monotonicityPass (markedBuffer [2, 10, 20, 30, 40]) (tableOf [2, 50, 20, 30, 40]) 50 =
      some (tableOf [2, 10, 20, 30, 40]) ∧
    ¬ (2 ≤ 1 ∧ 1 ≤ (tableOf [2, 50, 20, 30, 40]).length - 3) := by
  decide


theorem isDigitChar_range {c : Int} (h : isDigitChar c = true) : 48 ≤ c ∧ c ≤ 57 := by
  simpa [isDigitChar] using h

/-- The digit loop of `atoi` on a run of digits followed by another character. -/
theorem atoiDigits_run (digits : List Int) (c : Int) (rest : List Int)
    (hd : ∀ x, x ∈ digits → isDigitChar x = true) (hc : isDigitChar c = false) :
    ∀ acc, atoiDigits (digits ++ c :: rest) acc =
      some (digits.foldl (fun a x => a * 10 + (x - 48)) acc) := by
  induction digits with
  | nil =>
    intro acc
    simp [atoiDigits, hc]
  | cons x xs ih =>
    intro acc
    have hx := hd x (List.mem_cons_self x xs)
    rw [List.cons_append, atoiDigits, if_pos hx, List.foldl_cons]
    exact ih (fun y hy => hd y (List.mem_cons_of_mem x hy)) _

/-- Bounds of the value accumulated over a run of digits. -/
theorem foldl_digits_bounds (digits : List Int)
    (hd : ∀ x, x ∈ digits → isDigitChar x = true) :
    ∀ acc : Int, 0 ≤ acc →
      0 ≤ digits.foldl (fun a x => a * 10 + (x - 48)) acc ∧
      digits.foldl (fun a x => a * 10 + (x - 48)) acc < (acc + 1) * 10 ^ digits.length := by
  induction digits with
  | nil =>
    intro acc h
    simp
    omega
  | cons x xs ih =>
    intro acc h
    have hx := isDigitChar_range (hd x (List.mem_cons_self x xs))
    have := ih (fun y hy => hd y (List.mem_cons_of_mem x hy)) (acc * 10 + (x - 48)) (by omega)
    rw [List.foldl_cons]
    refine ⟨this.1, lt_of_lt_of_le this.2 ?_⟩
    rw [List.length_cons, pow_succ]
    have hp : (0 : Int) ≤ 10 ^ xs.length := by positivity
    nlinarith

/-- The part of C17 that holds on the code: when the field starts with `k`
digits (`1 <= k <= 9`) followed, inside the field, by a character that is no
digit, `readFromBuffer` returns the base-10 value of the `k` digits. -/
theorem readFromBuffer_leading_digits (buffer : Nat → Int) (numchars start k : Nat)
    (hk1 : 1 ≤ k) (hk9 : k ≤ 9) (hkn : k < numchars)
    (hdig : ∀ i, i < k → isDigitChar (buffer (start + i)) = true)
    (hstop : isDigitChar (buffer (start + k)) = false) :
    readFromBuffer buffer numchars start =
      some (decimalValue ((List.range k).map (fun i => buffer (start + i)))) := by
  obtain ⟨m, rfl⟩ : ∃ m, numchars = k + (m + 1) := ⟨numchars - k - 1, by omega⟩
  obtain ⟨k', rfl⟩ : ∃ k', k = k' + 1 := ⟨k - 1, by omega⟩
  obtain ⟨rest, hsplit⟩ : ∃ rest, (List.range (k' + 1 + (m + 1))).map (fun i => buffer (start + i)) =
      (List.range (k' + 1)).map (fun i => buffer (start + i)) ++
        buffer (start + (k' + 1)) :: rest := by
    refine ⟨(List.range m).map (fun x => buffer (start + (k' + 1 + (x + 1)))), ?_⟩
    rw [List.range_add, List.map_append, List.map_map, List.range_succ_eq_map m]
    simp [Function.comp_def]
  have hd : ∀ x, x ∈ (List.range (k' + 1)).map (fun i => buffer (start + i)) →
      isDigitChar x = true := by
    intro x hx
    obtain ⟨i, hi, rfl⟩ := List.mem_map.mp hx
    exact hdig i (List.mem_range.mp hi)
  have hrun := atoiDigits_run _ (buffer (start + (k' + 1))) rest hd hstop 0
  have hb := foldl_digits_bounds _ hd 0 (le_refl _)
  rw [List.length_map, List.length_range] at hb
  have hpow : (10 : Int) ^ (k' + 1) ≤ 10 ^ 9 := pow_le_pow_right₀ (by norm_num) hk9
  have h0 := isDigitChar_range (hdig 0 (by omega))
  rw [Nat.add_zero] at h0
  unfold readFromBuffer
  rw [hsplit]
  have hhead : (List.range (k' + 1)).map (fun i => buffer (start + i)) =
      buffer start :: (List.range k').map (fun i => buffer (start + (i + 1))) := by
    rw [List.range_succ_eq_map]
    simp [Function.comp_def, List.map_map]
  rw [hhead] at hrun ⊢
  rw [List.cons_append, atoi]
  have hsp : isSpaceChar (buffer start) = false := by
    unfold isSpaceChar
    have e1 : ¬ buffer start = 32 := by omega
    have e2 : ¬ buffer start ≤ 13 := by omega
    simp [e1, e2]
  rw [hsp]
  simp only [Bool.false_eq_true, if_false]
  rw [if_neg (by omega), if_neg (by omega)]
  rw [List.cons_append] at hrun
  rw [hrun]
  simp only [Option.some_bind, Option.bind_eq_bind]
  rw [hhead] at hb
  rw [if_pos (by constructor <;> omega)]
  rfl

/-- The header reader looks only at the bytes of its field. -/
theorem readFromBuffer_congr (buffer buffer' : Nat → Int) (numchars start : Nat)
    (h : ∀ i, i < numchars → buffer (start + i) = buffer' (start + i)) :
    readFromBuffer buffer numchars start = readFromBuffer buffer' numchars start := by
  unfold readFromBuffer
  congr 1
  apply List.map_congr_left
  intro i hi
  exact h i (List.mem_range.mp hi)

/-- C17 (the code at a failing input): the 4-byte field `"0002"` at offset 859
is copied into `new char[4]` with no terminator; all four characters are
digits, so `atoi` reads on past the array and the call has no defined result,
whereas a field `"02  "` gives 2. -/
theorem readFromBuffer_all_digits_overruns :
    (∀ i, i < 4 → isDigitChar (charBuffer 859 [48, 48, 48, 50] (859 + i)) = true) ∧
    readFromBuffer (charBuffer 859 [48, 48, 48, 50]) 4 859 = none ∧
    readFromBuffer (charBuffer 859 [48, 50, 32, 32]) 4 859 = some 2 := by
  decide


/-- A single repair keeps the sequence of block positions or drops one of them. -/
theorem repair_step_blockIndex (compData : Nat → Nat) (d : Int) (T0 : List indexPair) :
    ∀ (T T' : List indexPair) (j : Nat),
      List.Sublist (T.map (fun e => e.blockIndex)) (T0.map (fun e => e.blockIndex)) →
      j < T.length →
      replaceOrErase T j (searchSubRegion compData (leftBound T j) (rightBound T d j)) = some T' →
      List.Sublist (T'.map (fun e => e.blockIndex)) (T0.map (fun e => e.blockIndex)) := by
  intro T T' j hT hj h
  obtain ⟨ej, hej⟩ := exists_getElem? hj
  by_cases hv : searchSubRegion compData (leftBound T j) (rightBound T d j) = UINT_MAX
  · rw [hv, replaceOrErase_erase hj] at h
    cases h
    exact ((List.eraseIdx_sublist T j).map _).trans hT
  · rw [replaceOrErase_replace hv hej] at h
    cases h
    have hmap : (setOffset T j
        (searchSubRegion compData (leftBound T j) (rightBound T d j))).map
          (fun e => e.blockIndex) = T.map (fun e => e.blockIndex) := by
      apply List.ext_getElem?
      intro k
      rw [List.getElem?_map, List.getElem?_map]
      by_cases hk : k = j
      · subst hk
        rw [getElem?_setOffset_self _ hej, hej]
        rfl
      · rw [getElem?_setOffset_ne T _ hk]
    rw [hmap]
    exact hT

/-- C18: whenever `cleanCorruptedIndices` returns a table, the sequence of its
block positions is a subsequence of the sequence of the input's block
positions (nothing added, changed, renumbered or reordered), the table is not
longer than the input, and block positions that were strictly ascending stay
strictly ascending. -/
theorem cleanCorruptedIndices_blockIndex (compData : Nat → Nat) (T out : List indexPair)
    (dataBlockLength : Int)
    (h : cleanCorruptedIndices compData T dataBlockLength = some out) :
    List.Sublist (out.map (fun e => e.blockIndex)) (T.map (fun e => e.blockIndex)) ∧
    out.length ≤ T.length ∧
    ((T.map (fun e => e.blockIndex)).Pairwise (fun x y => x < y) →
      (out.map (fun e => e.blockIndex)).Pairwise (fun x y => x < y)) := by
  have hsub : List.Sublist (out.map (fun e => e.blockIndex)) (T.map (fun e => e.blockIndex)) :=
    cleanCorruptedIndices_invariant compData dataBlockLength
      (fun X => List.Sublist (X.map (fun e => e.blockIndex)) (T.map (fun e => e.blockIndex)))
      (repair_step_blockIndex compData dataBlockLength T) T out h (List.Sublist.refl _)
  refine ⟨hsub, ?_, fun hp => hp.sublist hsub⟩
  have := hsub.length_le
  simpa using this

/-- C18 at a concrete input: the swapped table, from which entry 2 is removed. -/
theorem cleanCorruptedIndices_blockIndex_witness :
    List.Sublist
      (([{ jpegIndex := 2, blockIndex := 0 }, { jpegIndex := 20, blockIndex := 1 },
         { jpegIndex := 30, blockIndex := 3 }] : List indexPair).map (fun e => e.blockIndex))
      ((tableOf [2, 20, 10, 30]).map (fun e => e.blockIndex)) ∧
    ([{ jpegIndex := 2, blockIndex := 0 }, { jpegIndex := 20, blockIndex := 1 },
      { jpegIndex := 30, blockIndex := 3 }] : List indexPair).length ≤
      (tableOf [2, 20, 10, 30]).length ∧
    (((tableOf [2, 20, 10, 30]).map (fun e => e.blockIndex)).Pairwise (fun x y => x < y) →
      (([{ jpegIndex := 2, blockIndex := 0 }, { jpegIndex := 20, blockIndex := 1 },
         { jpegIndex := 30, blockIndex := 3 }] : List indexPair).map
           (fun e => e.blockIndex)).Pairwise (fun x y => x < y)) :=
  cleanCorruptedIndices_blockIndex (markedBuffer [2, 10, 20, 30]) (tableOf [2, 20, 10, 30])
    [{ jpegIndex := 2, blockIndex := 0 }, { jpegIndex := 20, blockIndex := 1 },
     { jpegIndex := 30, blockIndex := 3 }] 40 (by decide)


theorem searchLoopReads_bounds (compData : Nat → Nat) (n : Nat) :
    ∀ i, i + n ≤ UINT_MAX →
      (∀ x, x ∈ searchLoopReads compData n i → i ≤ x ∧ x ≤ i + n) ∧
      (compData (i + n - 1) ≠ 255 → ∀ x, x ∈ searchLoopReads compData n i → x < i + n) := by
  induction n with
  | zero =>
    intro i _
    constructor
    · intro x hx
      cases hx
    · intro _ x hx
      cases hx
  | succ n ih =>
    intro i hi
    have hw : u32 (i + 1) = i + 1 := by
      apply u32_of_lt
      unfold UINT_MAX at hi
      omega
    obtain ⟨ih1, ih2⟩ := ih (i + 1) (by omega)
    have e1 : i + 1 + n - 1 = i + (n + 1) - 1 := by omega
    rw [e1] at ih2
    rw [searchLoopReads, hw]
    constructor
    · intro x hx
      split at hx
      · split at hx
        · simp only [List.mem_cons, List.mem_singleton, List.not_mem_nil, or_false] at hx
          omega
        · simp only [List.mem_cons] at hx
          rcases hx with hx | hx | hx
          · omega
          · omega
          · have := ih1 x hx
            omega
      · simp only [List.mem_cons] at hx
        rcases hx with hx | hx
        · omega
        · have := ih1 x hx
          omega
    · intro hlast x hx
      split at hx
      · rename_i hff
        have hff' : compData i = 255 := by simpa using hff
        have hn : n ≠ 0 := by
          intro h0
          subst h0
          apply hlast
          rw [← hff']
          congr 1
        split at hx
        · simp only [List.mem_cons, List.mem_singleton, List.not_mem_nil, or_false] at hx
          omega
        · simp only [List.mem_cons] at hx
          rcases hx with hx | hx | hx
          · omega
          · omega
          · have := ih2 hlast x hx
            omega
      · simp only [List.mem_cons] at hx
        rcases hx with hx | hx
        · omega
        · have := ih2 hlast x hx
          omega

/-- What holds of the reads of `searchSubRegion`: for `start < end` (below the
sentinel) every offset read lies in `start+1 .. end`, and offset `end` itself
is read only if the byte at `end - 1` is `0xFF`. -/
theorem searchSubRegionReads_bounds (compData : Nat → Nat) (start stop : Nat)
    (hs : start < stop) (he : stop ≤ UINT_MAX) :
    (∀ x, x ∈ searchSubRegionReads compData start stop → start < x ∧ x ≤ stop) ∧
    (compData (stop - 1) ≠ 255 →
      ∀ x, x ∈ searchSubRegionReads compData start stop → x < stop) := by
  have hw : u32 (start + 1) = start + 1 := by
    apply u32_of_lt
    unfold UINT_MAX at he
    omega
  unfold searchSubRegionReads
  rw [hw]
  obtain ⟨h1, h2⟩ := searchLoopReads_bounds compData (stop - (start + 1)) (start + 1) (by omega)
  have e : start + 1 + (stop - (start + 1)) = stop := by omega
  rw [e] at h1 h2
  constructor
  · intro x hx
    have := h1 x hx
    omega
  · intro hlast x hx
    exact h2 hlast x hx

/-- C19 (the code at a failing input): a compressed-data buffer of length 4
whose last byte is `0xFF`, searched with `start = 0 < end = 4 <= 4`:
`searchSubRegion` reads offsets 1, 2, 3 and then offset 4, the byte after the
buffer, before it returns the sentinel. -/
theorem searchSubRegion_reads_past_end :
    searchSubRegionReads (fun i => if i = 3 then 255 else 0) 0 4 = [1, 2, 3, 4] ∧
    searchSubRegion (fun i => if i = 3 then 255 else 0) 0 4 = UINT_MAX ∧
    ¬ ∀ x, x ∈ searchSubRegionReads (fun i => if i = 3 then 255 else 0) 0 4 → x < 4 := by
  decide


/-- C20 (the code at a failing input): the 4-entry table `[50, 10, 20, 5]` on
a 60-byte buffer without any marker.  The monotonicity pass erases entries 0
and 3, the first check of the marker pass erases the entry at offset 10, and
the last check of the marker pass then runs on a table of one entry: its
entry has no marker, so `idxs[idxs.size()-2]` is read, with
`idxs.size()-2 = 2^64 - 1`, outside the table. -/
theorem cleanCorruptedIndices_reads_outside_table :
    (tableOf [50, 10, 20, 5]).length = 4 ∧
    monotonicityPass (markedBuffer []) (tableOf [50, 10, 20, 5]) 60 =
      some [{ jpegIndex := 10, blockIndex := 1 }, { jpegIndex := 20, blockIndex := 2 }] ∧
    markerFirst (markedBuffer [])
        [{ jpegIndex := 10, blockIndex := 1 }, { jpegIndex := 20, blockIndex := 2 }] =
      some [{ jpegIndex := 20, blockIndex := 2 }] ∧
    markerLoop (markedBuffer []) 1 1 [{ jpegIndex := 20, blockIndex := 2 }] =
      some [{ jpegIndex := 20, blockIndex := 2 }] ∧
    hasJpegFlag (markedBuffer []) 20 = false ∧
    sizeMinus [{ jpegIndex := 20, blockIndex := 2 }] 2 = 18446744073709551615 ∧
    ([{ jpegIndex := 20, blockIndex := 2 }] : List indexPair)[18446744073709551615]? = none ∧
    markerLast (markedBuffer []) [{ jpegIndex := 20, blockIndex := 2 }] 60 = none ∧
    cleanCorruptedIndices (markedBuffer []) (tableOf [50, 10, 20, 5]) 60 = none := by
  decide


/-- Casting the `char` read from a byte to `unsigned char` gives the byte back,
whether `char` is signed or not. -/
theorem toUChar_charOfByte (signedChar : Bool) (b : Nat) (hb : b < 256) :
    toUChar (charOfByte signedChar b) = b := by
  unfold toUChar charOfByte
  split <;> omega

/-- The value of `readBigEndian` on a buffer given by its bytes. -/
theorem readBigEndian_bytes (signedChar : Bool) (bytes : Nat → Nat) (start : Nat)
    (hb : ∀ i, i < 4 → bytes (start + i) < 256) :
    readBigEndian (fun i => charOfByte signedChar (bytes i)) start =
      bytes start * 16777216 + bytes (start + 1) * 65536 +
        bytes (start + 2) * 256 + bytes (start + 3) := by
  rw [readBigEndian_formula]
  have h0 := hb 0 (by omega)
  rw [Nat.add_zero] at h0
  simp only [toUChar_charOfByte signedChar _ h0, toUChar_charOfByte signedChar _ (hb 1 (by omega)),
    toUChar_charOfByte signedChar _ (hb 2 (by omega)),
    toUChar_charOfByte signedChar _ (hb 3 (by omega))]

/-- C10: for a buffer and start offset with four readable bytes `b0 b1 b2 b3`
(values `0..255`; the `char` read from a byte `>= 0x80` is negative where
`char` is signed), `readBigEndian` returns
`b0*2^24 + b1*2^16 + b2*2^8 + b3`, which is at most `UINT_MAX` (nothing is
lost to 32-bit wrap-around); and a read that returns the same value, from any
buffer at any offset, has read the same four bytes: distinct 4-byte sequences
decode to distinct values. -/
theorem readBigEndian_value (signedChar : Bool) (bytes : Nat → Nat) (start : Nat)
    (hb : ∀ i, i < 4 → bytes (start + i) < 256) :
    readBigEndian (fun i => charOfByte signedChar (bytes i)) start =
      bytes start * 2 ^ 24 + bytes (start + 1) * 2 ^ 16 +
        bytes (start + 2) * 2 ^ 8 + bytes (start + 3) ∧
    bytes start * 2 ^ 24 + bytes (start + 1) * 2 ^ 16 +
        bytes (start + 2) * 2 ^ 8 + bytes (start + 3) ≤ UINT_MAX ∧
    ∀ (signedChar' : Bool) (bytes' : Nat → Nat) (start' : Nat),
      (∀ i, i < 4 → bytes' (start' + i) < 256) →
      readBigEndian (fun i => charOfByte signedChar' (bytes' i)) start' =
        readBigEndian (fun i => charOfByte signedChar (bytes i)) start →
      ∀ i, i < 4 → bytes' (start' + i) = bytes (start + i) := by
  have h0 := hb 0 (by omega)
  have h1 := hb 1 (by omega)
  have h2 := hb 2 (by omega)
  have h3 := hb 3 (by omega)
  rw [Nat.add_zero] at h0
  refine ⟨?_, ?_, ?_⟩
  · rw [readBigEndian_bytes signedChar bytes start hb]
    norm_num
  · unfold UINT_MAX
    norm_num
    omega
  · intro signedChar' bytes' start' hb' heq i hi
    rw [readBigEndian_bytes signedChar bytes start hb,
      readBigEndian_bytes signedChar' bytes' start' hb'] at heq
    have g0 := hb' 0 (by omega)
    have g1 := hb' 1 (by omega)
    have g2 := hb' 2 (by omega)
    have g3 := hb' 3 (by omega)
    rw [Nat.add_zero] at g0
    have hi' : i = 0 ∨ i = 1 ∨ i = 2 ∨ i = 3 := by omega
    rcases hi' with rfl | rfl | rfl | rfl
    · simp only [Nat.add_zero]; omega
    · omega
    · omega
    · omega

/-- C10 at a concrete input: the bytes `FF 00 80 7F` read through a signed
`char` (as `-1, 0, -128, 127`) decode to `0xFF00807F`. -/
theorem readBigEndian_value_witness :
    (∀ i, i < 4 → [255, 0, 128, 127].getD (0 + i) 0 < 256) ∧
    charOfByte true 255 = -1 ∧ charOfByte true 128 = -128 ∧
    readBigEndian (fun i => charOfByte true ([255, 0, 128, 127].getD i 0)) 0 =
      255 * 2 ^ 24 + 0 * 2 ^ 16 + 128 * 2 ^ 8 + 127 ∧
    readBigEndian (fun i => charOfByte true ([255, 0, 128, 127].getD i 0)) 0 = 4278222975 :=
  ⟨by decide, by decide, by decide,
   (readBigEndian_value true (fun i => [255, 0, 128, 127].getD i 0) 0 (by decide)).1,
   by decide⟩


/-- C9: `findIdx` throws `std::length_error` from `idxs.reserve` for every
negative `numBlocks`; for every non-negative `numBlocks` it appends to the
vector exactly one entry for each slot `i < numBlocks` whose big-endian value
at `start + 4*i` is not `UINT_MAX`, in ascending `i`, with `jpegIndex` that
value and `blockIndex = i`; sentinel slots are omitted without renumbering, so
the number of new entries is `numBlocks` minus the number of sentinel slots
and the block positions are strictly ascending. -/
theorem findIdx_table (datablock : Nat → Int) (start : Nat) (numBlocks : Int)
    (idxs : List indexPair) :
    (numBlocks < 0 → findIdx datablock start numBlocks idxs = none) ∧
    (0 ≤ numBlocks →
      ∃ new, findIdx datablock start numBlocks idxs = some (idxs ++ new) ∧
        new = (List.range numBlocks.toNat).filterMap (fun i =>
          if readBigEndian datablock (start + i * 4) = UINT_MAX then none
          else some { jpegIndex := readBigEndian datablock (start + i * 4),
                      blockIndex := (i : Int) }) ∧
        (∀ e, e ∈ new ↔ ∃ i : Nat, (i : Int) < numBlocks ∧
          readBigEndian datablock (start + i * 4) ≠ UINT_MAX ∧
          e = { jpegIndex := readBigEndian datablock (start + i * 4), blockIndex := (i : Int) }) ∧
        new.Pairwise (fun a b => a.blockIndex < b.blockIndex) ∧
        (new.length : Int) + (((List.range numBlocks.toNat).filter
          (fun i => decide (readBigEndian datablock (start + i * 4) = UINT_MAX))).length : Int)
            = numBlocks) := by
  constructor
  · intro hneg
    simp [findIdx, hneg]
  intro hnn
  have hnot : ¬ numBlocks < 0 := by omega
  refine ⟨_, ?_, rfl, ?_, ?_, ?_⟩
  · unfold findIdx
    rw [if_neg hnot]
    congr 1
    apply findIdx_foldl
    intro acc i
    have hle := readBigEndian_le datablock (start + i * 4)
    by_cases h : readBigEndian datablock (start + i * 4) = UINT_MAX
    · simp [h]
    · have hlt : readBigEndian datablock (start + i * 4) < UINT_MAX := by omega
      simp [h, hlt]
  · intro e
    simp only [List.mem_filterMap, List.mem_range]
    constructor
    · rintro ⟨i, hi, he⟩
      by_cases h : readBigEndian datablock (start + i * 4) = UINT_MAX
      · simp [h] at he
      · simp [h] at he
        exact ⟨i, by omega, h, he.symm⟩
    · rintro ⟨i, hi, h, he⟩
      refine ⟨i, by omega, ?_⟩
      simp [h, he]
  · rw [List.pairwise_filterMap]
    refine List.Pairwise.imp ?_ (List.pairwise_lt_range numBlocks.toNat)
    intro a b hab x hx y hy
    by_cases ha : readBigEndian datablock (start + a * 4) = UINT_MAX
    · simp [ha] at hx
    · by_cases hb : readBigEndian datablock (start + b * 4) = UINT_MAX
      · simp [hb] at hy
      · simp [ha] at hx
        simp [hb] at hy
        subst hx
        subst hy
        simp only
        exact_mod_cast hab
  · have hgen : ∀ l : List Nat,
        (l.filterMap (fun i =>
          if readBigEndian datablock (start + i * 4) = UINT_MAX then none
          else some ({ jpegIndex := readBigEndian datablock (start + i * 4),
                       blockIndex := (i : Int) } : indexPair))).length +
        (l.filter (fun i => decide (readBigEndian datablock (start + i * 4) = UINT_MAX))).length
          = l.length := by
      intro l
      induction l with
      | nil => simp
      | cons i l ih =>
        by_cases h : readBigEndian datablock (start + i * 4) = UINT_MAX
        · simp [List.filterMap_cons, List.filter_cons, h]
          omega
        · simp [List.filterMap_cons, List.filter_cons, h]
          omega
    have hg := hgen (List.range numBlocks.toNat)
    rw [List.length_range] at hg
    omega

/-- C9 at a concrete input: three slots holding 7, the sentinel `FF FF FF FF`
and 9 give the two entries `(7, 0)` and `(9, 2)`; a count of `-1` gives no
table. -/
theorem findIdx_table_witness :
    (0 : Int) ≤ 3 ∧
    (∃ new, findIdx (charBuffer 0 [0, 0, 0, 7, -1, -1, -1, -1, 0, 0, 0, 9]) 0 3 [] =
        some ([] ++ new) ∧
      new = [{ jpegIndex := 7, blockIndex := 0 }, { jpegIndex := 9, blockIndex := 2 }]) ∧
    ((-1 : Int) < 0 ∧
      findIdx (charBuffer 0 [0, 0, 0, 7, -1, -1, -1, -1, 0, 0, 0, 9]) 0 (-1) [] = none) :=
  ⟨by decide,
   by
    obtain ⟨new, h1, h2, _⟩ :=
      (findIdx_table (charBuffer 0 [0, 0, 0, 7, -1, -1, -1, -1, 0, 0, 0, 9]) 0 3 []).2
        (by decide)
    refine ⟨new, h1, ?_⟩
    rw [h2]
    decide,
   by decide,
   (findIdx_table (charBuffer 0 [0, 0, 0, 7, -1, -1, -1, -1, 0, 0, 0, 9]) 0 (-1) []).1
     (by decide)⟩

/-- C9 (an input at which the claim fails): the header fields `"-2  "` at 859
and `"2   "` at 863 are read as `-2` and `2`, so `main` calls `findIdx` with
`numBlocks = -4` (and `start = 917`, the field at 902 being read as 0):
`reserve` throws and no table is produced, where the claim has the table with
no entry. -/
theorem findIdx_negative_count_throws :
    readFromBuffer (charBuffer 859 [45, 50, 32, 32, 50, 32, 32, 32]) 4 859 = some (-2) ∧
    readFromBuffer (charBuffer 859 [45, 50, 32, 32, 50, 32, 32, 32]) 4 863 = some 2 ∧
    readFromBuffer (charBuffer 859 [45, 50, 32, 32, 50, 32, 32, 32]) 5 902 = some 0 ∧
    findIdx (charBuffer 859 [45, 50, 32, 32, 50, 32, 32, 32]) (910 + 0 - 3 + 4 + 2 * 3) ((-2) * 2) [] = none ∧
    findIdx (charBuffer 859 [45, 50, 32, 32, 50, 32, 32, 32]) (910 + 0 - 3 + 4 + 2 * 3) ((-2) * 2) [] ≠ some [] := by
  decide


end Nitf2Jpeg
